

import Mathlib

/-!
Verification development for torch/fx/graph_module.py.

The Python module is shallowly embedded:
  - Python strings are lists of characters (PStr); str.split, str.join and
    str.splitlines are embedded as splitOnChar, joinWith and splitlinesP
    (splitlinesP models the newline character only, which is the only line
    break occurring in generated sources).
  - The Python object graph is an explicit heap: addresses are naturals,
    address 0 is reserved for the None singleton, and each live object has a
    payload (module, leaf value, string, graph, function) plus an attribute
    dictionary.  Attribute reads/writes are getattrH / setattrH; reference
    identity is address equality.  torch.nn.Module is not part of the sources
    under verification; following the spec's Container interface, a module is
    a node of named slots read and written through its attribute dictionary.
  - Process-wide state (the _next_id counter, the _eval_cache line registry,
    and the per-instance class table holding each singleton class's forward
    slot) is threaded explicitly through PState.
  - Python compile/exec is external; it is represented by a compileOk oracle,
    and executing a (always synthesized, hence single def forward) source
    yields a fresh function object recording its key and source.
-/

set_option linter.unusedVariables false

/-- Characters of a Python string. -/
abbrev PStr := List Char

/-- Embedding of Python str.split(sep) for a one-character separator:
splits at every occurrence, always returns at least one piece. -/
def splitOnChar (c : Char) : PStr → List PStr
  | [] => [[]]
  | x :: xs =>
    match splitOnChar c xs with
    | [] => [[]]
    | p :: ps => if x = c then [] :: p :: ps else (x :: p) :: ps

/-- Embedding of Python sep.join(pieces). -/
def joinWith (sep : PStr) : List PStr → PStr
  | [] => []
  | [p] => p
  | p :: q :: ps => p ++ sep ++ joinWith sep (q :: ps)

/-- Embedding of Python str.splitlines() restricted to the newline character
(the only line break present in synthesized sources): like splitting on
newline, except that a trailing newline does not contribute a final empty
line, and an empty string has no lines. -/
def splitlinesP (s : PStr) : List PStr :=
  let ps := splitOnChar '\n' s
  if ps.getLastD ['x'] = [] then ps.dropLast else ps

/-- Decimal digit characters. -/
def digitChar : Nat → Char
  | 0 => '0'
  | 1 => '1'
  | 2 => '2'
  | 3 => '3'
  | 4 => '4'
  | 5 => '5'
  | 6 => '6'
  | 7 => '7'
  | 8 => '8'
  | _ => '9'

/-- Fuel-driven digit accumulator for rendering a natural in decimal
(structural recursion so that concrete keys evaluate by rfl). -/
def natCharsAux : Nat → Nat → List Char → List Char
  | 0, n, acc => digitChar (n % 10) :: acc
  | fuel + 1, n, acc =>
    if n < 10 then digitChar n :: acc
    else natCharsAux fuel (n / 10) (digitChar (n % 10) :: acc)

/-- Decimal rendering of a natural number, as used in formatted keys. -/
def natChars (n : Nat) : List Char := natCharsAux n n []

/-- Reference decimal rendering used only in proofs. -/
def digitsRec (n : Nat) : List Char :=
  if n < 10 then [digitChar n] else digitsRec (n / 10) ++ [digitChar (n % 10)]
  decreasing_by exact Nat.div_lt_self (by omega) (by omega)

/-- Numeric value of a digit character. -/
def dval (c : Char) : Nat := c.toNat - 48

/-- Numeric value of a digit string. -/
def valOfDigits (s : List Char) : Nat := s.foldl (fun a c => a * 10 + dval c) 0

/-- Embedding of the synthetic key format used by exec_with_source. -/
def keyFor (n : Nat) : PStr :=
  "<eval_with_key_".data ++ natChars n ++ ['>']

/-- A node record of the externally owned Graph: an operation tag and a
dotted-path target (both Python strings). -/
structure NodeData where
  op : PStr
  target : PStr
deriving DecidableEq

/-- The externally owned Graph, carrying its ordered node records together
with the linearization that python_code returns: emitted body, result
expression and free-variable names. -/
structure GraphData where
  nodes : List NodeData
  pcBody : PStr
  pcResult : PStr
  pcFreeVars : List PStr
deriving DecidableEq

/-- Payload of a heap object: a torch.nn.Module container node, an
identity-only leaf value (parameter/buffer), a bool, a string, a Graph, or a
function object recording the key and source it was compiled from. -/
inductive Payload where
  | moduleP : Payload
  | leafP : Nat → Payload
  | boolP : Bool → Payload
  | strP : PStr → Payload
  | graphP : GraphData → Payload
  | funcP : PStr → PStr → Payload
deriving DecidableEq

/-- Address of the interned None singleton (never a live object). -/
def noneAddr : Nat := 0

/-- A Python object: payload plus attribute dictionary (insertion ordered). -/
structure PyObj where
  payload : Payload
  attrs : List (PStr × Nat)
deriving DecidableEq

/-- The object heap: association of addresses to objects, plus the next
fresh address. -/
structure Heap where
  objs : List (Nat × PyObj)
  next : Nat
deriving DecidableEq

/-- First-match association list lookup (Python dict lookup). -/
def alLookup {α β : Type} [DecidableEq α] (k : α) : List (α × β) → Option β
  | [] => none
  | (k', v) :: rest => if k' = k then some v else alLookup k rest

/-- In-place association list update, appending when absent (Python dict
item assignment, which keeps the original insertion position). -/
def alUpdate {α β : Type} [DecidableEq α] (k : α) (v : β) :
    List (α × β) → List (α × β)
  | [] => [(k, v)]
  | (k', v') :: rest =>
    if k' = k then (k, v) :: rest else (k', v') :: alUpdate k v rest

/-- Update one attribute of the object bound at an address, in place. -/
def objUpdate (a : Nat) (name : PStr) (v : Nat) :
    List (Nat × PyObj) → List (Nat × PyObj)
  | [] => []
  | (b, o) :: rest =>
    if b = a then (b, { o with attrs := alUpdate name v o.attrs }) :: rest
    else (b, o) :: objUpdate a name v rest

/-- Look up the object bound at an address. -/
def hLookup (objs : List (Nat × PyObj)) (a : Nat) : Option PyObj :=
  alLookup a objs

/-- Embedding of getattr on the heap: none models AttributeError. -/
def getattrH (h : Heap) (a : Nat) (name : PStr) : Option Nat :=
  match hLookup h.objs a with
  | none => none
  | some o => alLookup name o.attrs

/-- Embedding of setattr on the heap. -/
def setattrH (h : Heap) (a : Nat) (name : PStr) (v : Nat) : Heap :=
  { h with objs := objUpdate a name v h.objs }

/-- Allocate a fresh object, returning its address. -/
def allocObj (h : Heap) (p : Payload) (attrs : List (PStr × Nat)) :
    Heap × Nat :=
  ({ objs := h.objs ++ [(h.next, ⟨p, attrs⟩)], next := h.next + 1 }, h.next)

/-- Payload of the object bound at an address. -/
def hPayload (h : Heap) (a : Nat) : Option Payload :=
  (hLookup h.objs a).map PyObj.payload

/-- Failure taxonomy: invalidPath is the AttributeError raised when a
transplant path does not resolve in the template (spec: InvalidPath);
compileError is a failing compile of generated source. -/
inductive Err where
  | invalidPath : Err
  | compileError : Err
deriving DecidableEq

/-- Embedding of the loop of _copy_attr over the split path: walks the
leading items in template and target in lock step; resolving an item in the
template raises on absence; the target-side item defaults to None when
absent; if template node and target node are the very same reference the
walk stops successfully; a None target slot is filled with a fresh empty
Module; after the walk the final field is copied by reference. -/
def copyLoop (h : Heap) (fm tm : Nat) : List PStr → PStr → Except Err Heap
  | [], field =>
    match getattrH h fm field with
    | none => .error .invalidPath
    | some v => .ok (setattrH h tm field v)
  | item :: rest, field =>
    match getattrH h fm item with
    | none => .error .invalidPath
    | some f =>
      let t := (getattrH h tm item).getD noneAddr
      if f = t then .ok h
      else if t = noneAddr then
        let h1 := (allocObj h .moduleP []).1
        let tNew := (allocObj h .moduleP []).2
        copyLoop (setattrH h1 tm item tNew) f tNew rest field
      else copyLoop h f t rest field

/-- Embedding of _copy_attr: split the dotted target into leading items and
a final field, then run the walk. -/
def copyAttr (h : Heap) (fm tm : Nat) (target : PStr) : Except Err Heap :=
  let parts := splitOnChar '.' target
  copyLoop h fm tm parts.dropLast (parts.getLastD [])

/-- Process-wide state: the heap, the _next_id counter, the _eval_cache
line registry, and the table assigning to each per-instance singleton class
the function object installed in its forward slot. -/
structure PState where
  heap : Heap
  nextId : Nat
  evalCache : List (PStr × List PStr)
  classTable : List (Nat × Nat)
  nextCls : Nat
deriving DecidableEq

/-- Embedding of the line list stored by exec_with_source:
src.splitlines() with a newline appended to every line. -/
def toLines (src : PStr) : List PStr :=
  (splitlinesP src).map (fun l => l ++ ['\n'])

/-- Embedding of exec_with_source: allocate the next synthetic key,
advance the counter, store the source's lines in the registry, then
compile-and-exec.  Compilation is the external oracle compileOk; on success
execution of the (always synthesized, single def forward) source produces a
fresh function object, the value the caller reads back under the name
forward; on failure no function results but the registry write and the
counter increment have already happened. -/
def exec_with_source (compileOk : PStr → Bool) (src : PStr) (s : PState) :
    PState × Option Nat :=
  let key := keyFor s.nextId
  let s1 := { s with nextId := s.nextId + 1,
                     evalCache := alUpdate key (toLines src) s.evalCache }
  if compileOk src then
    let (h2, fA) := allocObj s1.heap (.funcP key src) []
    ({ s1 with heap := h2 }, some fA)
  else (s1, none)

/-- Embedding of patched_getline: a key issued by exec_with_source resolves
to the stored lines; any other key falls through to the original
linecache.getlines, modelled by the origGetlines parameter. -/
def patched_getline (cache : List (PStr × List PStr))
    (origGetlines : PStr → List PStr) (key : PStr) : List PStr :=
  match alLookup key cache with
  | some lines => lines
  | none => origGetlines key

/-- Embedding of forward_from_src: exec the source in a fresh namespace
holding torch and extract the function bound to forward. -/
def forward_from_src (compileOk : PStr → Bool) (src : PStr) (s : PState) :
    PState × Option Nat :=
  exec_with_source compileOk src s

/-- Embedding of the source synthesis inside _generate_forward: indent every
body line by four spaces and append a newline (line 100), then splice it
into the f-string, whose template carries one more literal newline between
the body slot and the return line — so a blank line separates the last body
line from the return statement. -/
def synthesizeCode (body result : PStr) (freeVars : List PStr) : PStr :=
  let body2 :=
    joinWith ['\n'] ((splitOnChar '\n' body).map
      (fun line => "    ".data ++ line)) ++ ['\n']
  "def forward(self, ".data ++ joinWith ", ".data freeVars
    ++ "):".data ++ ['\n'] ++ body2 ++ ['\n'] ++ "    return ".data
    ++ result ++ ['\n']

/-- Attribute name training. -/
def trainingName : PStr := "training".data

/-- Attribute name graph. -/
def graphName : PStr := "graph".data

/-- Attribute name code. -/
def codeName : PStr := "code".data

/-- Operation tag get_param. -/
def opGetParam : PStr := "get_param".data

/-- Operation tag call_module. -/
def opCallModule : PStr := "call_module".data

/-- Embedding of GraphModule._generate_forward: read self.graph, take the
graph's linearization, synthesize the source, store it as self.code, then
compile-and-bind it and install the function in this instance's singleton
class's forward slot. -/
def generate_forward (compileOk : PStr → Bool) (s : PState) (selfA : Nat)
    (clsId : Nat) : Except Err PState :=
  match getattrH s.heap selfA graphName with
  | none => .error .invalidPath
  | some gA =>
    match hPayload s.heap gA with
    | some (.graphP gd) =>
      let code := synthesizeCode gd.pcBody gd.pcResult gd.pcFreeVars
      let h1 := (allocObj s.heap (.strP code) []).1
      let h2 := setattrH h1 selfA codeName s.heap.next
      let res := forward_from_src compileOk code { s with heap := h2 }
      match res.2 with
      | some fA =>
        .ok { res.1 with classTable := alUpdate clsId fA res.1.classTable }
      | none => .error .compileError
    | _ => .error .invalidPath

/-- Embedding of the transplant loop in GraphModule.__init__: for every node
whose operation tag is get_param or call_module, copy its target from the
template into self. -/
def transplantAll (root selfA : Nat) : Heap → List NodeData → Except Err Heap
  | h, [] => .ok h
  | h, n :: rest =>
    if n.op = opGetParam ∨ n.op = opCallModule then
      match copyAttr h root selfA n.target with
      | .error e => .error e
      | .ok h2 => transplantAll root selfA h2 rest
    else transplantAll root selfA h rest

/-- Embedding of GraphModule.__new__ plus GraphModule.__init__: allocate a
fresh singleton class identity and a fresh instance, copy the training flag
from the template root, transplant every qualifying node target, store the
graph reference, then generate and bind forward.  Any failure aborts
construction and no instance escapes. -/
def GraphModule.construct (compileOk : PStr → Bool) (s : PState)
    (root gAddr : Nat) : Except Err (PState × Nat × Nat) :=
  let clsId := s.nextCls
  let h1 := (allocObj s.heap .moduleP []).1
  let selfA := s.heap.next
  match getattrH h1 root trainingName with
  | none => .error .invalidPath
  | some tA =>
    let h2 := setattrH h1 selfA trainingName tA
    match hPayload h2 gAddr with
    | some (.graphP gd) =>
      match transplantAll root selfA h2 gd.nodes with
      | .error e => .error e
      | .ok h3 =>
        let h4 := setattrH h3 selfA graphName gAddr
        let s4 := { s with heap := h4, nextCls := s.nextCls + 1 }
        match generate_forward compileOk s4 selfA clsId with
        | .error e => .error e
        | .ok s5 => .ok (s5, selfA, clsId)
    | _ => .error .invalidPath

/-- Embedding of GraphModule.__reduce__: the state bundle it pairs with the
restore entry point deserialize_graphmodule is the instance's whole
attribute dictionary. -/
def GraphModule.reduceGM (s : PState) (selfA : Nat) : List (PStr × Nat) :=
  match hLookup s.heap.objs selfA with
  | some o => o.attrs
  | none => []

/-- Resolution of a dotted path in a container, used to state claims about
paths that do or do not resolve in the template. -/
def resolvePath (h : Heap) (a : Nat) (path : PStr) : Option Nat :=
  (splitOnChar '.' path).foldl
    (fun acc name =>
      match acc with
      | none => none
      | some b => getattrH h b name)
    (some a)

/-- Success test for an Except result. -/
def exceptOk {α : Type} : Except Err α → Bool
  | .ok _ => true
  | .error _ => false

/-- The empty heap: address 0 is reserved for None, live objects start at 1. -/
def initHeap : Heap := { objs := [], next := 1 }

/-- Process start state: empty heap, _next_id at 0, empty _eval_cache. -/
def initState : PState :=
  { heap := initHeap, nextId := 0, evalCache := [], classTable := [],
    nextCls := 0 }

/-! Association list and heap lemmas. -/

/-- Well-formed heap: the allocation bound is positive (address 0 stays
reserved for None) and every bound address is below it. -/
def heapWF (h : Heap) : Prop :=
  1 ≤ h.next ∧ ∀ a : Nat, (hLookup h.objs a).isSome → 1 ≤ a ∧ a < h.next

/-- No dangling references: every attribute of every live object holds
either the None address or the address of a live object.  Any heap that
models a real Python object graph satisfies this, since Python references
always point at live objects. -/
def heapClosed (h : Heap) : Prop :=
  ∀ a o, hLookup h.objs a = some o →
    ∀ p ∈ o.attrs, p.2 = noneAddr ∨ (hLookup h.objs p.2).isSome

/-- Every attribute value of every live object below the bound B stays
below B: the sub-heap below B is self-contained. -/
def attrsBelow (h : Heap) (B : Nat) : Prop :=
  ∀ a o, a < B → hLookup h.objs a = some o → ∀ p ∈ o.attrs, p.2 < B

/-- The template-side walk of _copy_attr reaches a missing name: descending
from fm through the leading items, every intermediate value is a real
object (not None — a None value would instead meet the fresh target's None
default and trigger the identity short-circuit), and some leading item or
the final field is absent, which getattr answers with AttributeError. -/
def walkFails (h : Heap) (fm : Nat) : List PStr → PStr → Bool
  | [], field => (getattrH h fm field).isNone
  | item :: rest, field =>
    match getattrH h fm item with
    | none => true
    | some f => if f = noneAddr then false else walkFails h f rest field

/-- The source text generate_forward synthesizes for a graph. -/
def gfCode (gd : GraphData) : PStr :=
  synthesizeCode gd.pcBody gd.pcResult gd.pcFreeVars

/-- The process state produced by a successful generate_forward run: the
code string object is allocated, installed as the instance's code slot, the
registry gains the source under a fresh key, the function object is
allocated and installed in the singleton class's forward slot. -/
def gfResult (s : PState) (selfA clsId : Nat) (gd : GraphData) : PState :=
  { heap := (allocObj (setattrH (allocObj s.heap (.strP (gfCode gd)) []).1
        selfA codeName s.heap.next)
      (.funcP (keyFor s.nextId) (gfCode gd)) []).1,
    nextId := s.nextId + 1,
    evalCache := alUpdate (keyFor s.nextId) (toLines (gfCode gd))
      s.evalCache,
    classTable := alUpdate clsId (s.heap.next + 1) s.classTable,
    nextCls := s.nextCls }

/-- A sequence of binding events: fold exec_with_source over a list of
sources, keeping the resulting process state. -/
def bindAll (compileOk : PStr → Bool) (srcs : List PStr) (s : PState) :
    PState :=
  srcs.foldl (fun st src => (exec_with_source compileOk src st).1) s

/-- A concrete graph linearization: one get_param node targeting a.b. -/
def gdC1 : GraphData :=
  { nodes := [⟨opGetParam, "a.b".data⟩],
    pcBody := "r = self.a.b".data, pcResult := ['r'],
    pcFreeVars := [['x']] }

/-- A concrete process state: a template container tree rooted at address 1
with a child a at 2 holding a leaf slot b at 4, a training flag at 6, and
the graph object at 7. -/
def sC1 : PState :=
  { heap := { objs := [
        (1, ⟨.moduleP, [("training".data, 6), (['a'], 2)]⟩),
        (2, ⟨.moduleP, [(['b'], 4)]⟩),
        (4, ⟨.moduleP, []⟩),
        (6, ⟨.boolP true, []⟩),
        (7, ⟨.graphP gdC1, []⟩) ], next := 8 },
    nextId := 0, evalCache := [], classTable := [], nextCls := 0 }

/-- The process state after constructing a unit from sC1's template and
graph (initState if construction failed). -/
def sC1res : PState :=
  match GraphModule.construct (fun _ => true) sC1 1 7 with
  | .ok r => r.1
  | .error _ => initState

/-- The process state after constructing a second unit from the same
template and graph (initState if construction failed). -/
def sC7b : PState :=
  match GraphModule.construct (fun _ => true) sC1res 1 7 with
  | .ok r => r.1
  | .error _ => initState

/-- The process state after re-generating the first unit's forward in the
two-unit state (initState if generation failed). -/
def sC7c : PState :=
  match generate_forward (fun _ => true) sC7b 8 0 with
  | .ok r => r
  | .error _ => initState

theorem natCharsAux_eq (fuel : Nat) :
    ∀ n acc, n ≤ fuel → natCharsAux fuel n acc = digitsRec n ++ acc := by
  induction fuel with
  | zero =>
    intro n acc hn
    have hn0 : n = 0 := Nat.le_zero.mp hn
    subst hn0
    rw [digitsRec]
    simp [natCharsAux]
  | succ fuel ih =>
    intro n acc hn
    by_cases h : n < 10
    · rw [digitsRec]
      simp [natCharsAux, h]
    · have hdiv : n / 10 ≤ fuel := by
        have h1 : n / 10 < n := Nat.div_lt_self (by omega) (by omega)
        omega
      have hstep : natCharsAux (fuel + 1) n acc
          = if n < 10 then digitChar n :: acc
            else natCharsAux fuel (n / 10) (digitChar (n % 10) :: acc) := rfl
      rw [hstep, if_neg h, ih (n / 10) _ hdiv]
      conv_rhs => rw [digitsRec]
      rw [if_neg h]
      simp

theorem natChars_eq_digitsRec (n : Nat) : natChars n = digitsRec n := by
  have h := natCharsAux_eq n n [] (Nat.le_refl n)
  simpa [natChars] using h

theorem dval_digitChar (d : Nat) (hd : d < 10) : dval (digitChar d) = d := by
  interval_cases d <;> rfl

theorem valOfDigits_append_digit (s : List Char) (c : Char) :
    valOfDigits (s ++ [c]) = valOfDigits s * 10 + dval c := by
  simp [valOfDigits, List.foldl_append]

theorem valOfDigits_digitsRec (n : Nat) : valOfDigits (digitsRec n) = n := by
  induction n using Nat.strong_induction_on with
  | _ n ih =>
    by_cases h : n < 10
    · rw [digitsRec]
      simp only [if_pos h]
      simp [valOfDigits, dval_digitChar n h]
    · rw [digitsRec]
      simp only [if_neg h]
      rw [valOfDigits_append_digit]
      have hlt : n / 10 < n := Nat.div_lt_self (by omega) (by omega)
      rw [ih (n / 10) hlt, dval_digitChar (n % 10) (Nat.mod_lt _ (by omega))]
      omega

theorem natChars_injective : Function.Injective natChars := by
  intro m n h
  rw [natChars_eq_digitsRec, natChars_eq_digitsRec] at h
  have := congrArg valOfDigits h
  rwa [valOfDigits_digitsRec, valOfDigits_digitsRec] at this

theorem keyFor_injective : Function.Injective keyFor := by
  intro m n h
  unfold keyFor at h
  rw [List.append_assoc, List.append_assoc] at h
  have h1 : natChars m ++ ['>'] = natChars n ++ ['>'] :=
    List.append_cancel_left h
  have h2 : natChars m = natChars n := by
    have := congrArg List.dropLast h1
    simpa [List.dropLast_concat] using this
  exact natChars_injective h2

theorem alLookup_update_self {α β : Type} [DecidableEq α] (k : α) (v : β)
    (l : List (α × β)) : alLookup k (alUpdate k v l) = some v := by
  induction l with
  | nil => simp [alLookup, alUpdate]
  | cons p rest ih =>
    obtain ⟨k', v'⟩ := p
    by_cases h : k' = k
    · subst h
      simp [alLookup, alUpdate]
    · simp [alLookup, alUpdate, h, ih]

theorem alLookup_update_ne {α β : Type} [DecidableEq α] (k k' : α) (v : β)
    (l : List (α × β)) (hk : k' ≠ k) :
    alLookup k' (alUpdate k v l) = alLookup k' l := by
  induction l with
  | nil => simp [alLookup, alUpdate, Ne.symm hk]
  | cons p rest ih =>
    obtain ⟨k0, v0⟩ := p
    by_cases h : k0 = k
    · subst h
      simp [alLookup, alUpdate, Ne.symm hk]
    · simp only [alUpdate, if_neg h]
      by_cases h2 : k0 = k'
      · subst h2
        simp [alLookup]
      · simp [alLookup, h2, ih]

theorem alUpdate_idem {α β : Type} [DecidableEq α] (k : α) (v : β)
    (l : List (α × β)) : alUpdate k v (alUpdate k v l) = alUpdate k v l := by
  induction l with
  | nil => simp [alUpdate]
  | cons p rest ih =>
    obtain ⟨k', v'⟩ := p
    by_cases h : k' = k
    · subst h
      simp [alUpdate]
    · simp [alUpdate, h, ih]

theorem alLookup_mem {α β : Type} [DecidableEq α] {k : α} {v : β}
    {l : List (α × β)} (h : alLookup k l = some v) : (k, v) ∈ l := by
  induction l with
  | nil => simp [alLookup] at h
  | cons p rest ih =>
    obtain ⟨k', v'⟩ := p
    by_cases hk : k' = k
    · subst hk
      simp [alLookup] at h
      simp [h]
    · simp only [alLookup, if_neg hk] at h
      exact List.mem_cons_of_mem _ (ih h)

theorem hLookup_objUpdate_ne (objs : List (Nat × PyObj)) (a b : Nat)
    (name : PStr) (v : Nat) (hb : b ≠ a) :
    hLookup (objUpdate a name v objs) b = hLookup objs b := by
  induction objs with
  | nil => simp [objUpdate]
  | cons p rest ih =>
    obtain ⟨c, o⟩ := p
    by_cases h : c = a
    · subst h
      simp [objUpdate, hLookup, alLookup, Ne.symm hb]
    · simp only [objUpdate, if_neg h]
      by_cases h2 : c = b
      · subst h2
        simp [hLookup, alLookup]
      · simpa [hLookup, alLookup, h2] using ih

theorem hLookup_objUpdate_self (objs : List (Nat × PyObj)) (a : Nat)
    (name : PStr) (v : Nat) :
    hLookup (objUpdate a name v objs) a
      = (hLookup objs a).map
          (fun o => { o with attrs := alUpdate name v o.attrs }) := by
  induction objs with
  | nil => simp [objUpdate, hLookup, alLookup]
  | cons p rest ih =>
    obtain ⟨c, o⟩ := p
    by_cases h : c = a
    · subst h
      simp [objUpdate, hLookup, alLookup]
    · simpa [objUpdate, hLookup, alLookup, h] using ih

theorem hLookup_append_of_isSome (l : List (Nat × PyObj)) (a k : Nat)
    (o : PyObj) (h : (hLookup l a).isSome) :
    hLookup (l ++ [(k, o)]) a = hLookup l a := by
  induction l with
  | nil => simp [hLookup, alLookup] at h
  | cons p rest ih =>
    obtain ⟨c, o'⟩ := p
    by_cases hc : c = a
    · subst hc
      simp [hLookup, alLookup]
    · simp only [hLookup, alLookup, if_neg hc] at h ⊢
      exact ih h

theorem hLookup_append_self (l : List (Nat × PyObj)) (k : Nat) (o : PyObj)
    (h : hLookup l k = none) : hLookup (l ++ [(k, o)]) k = some o := by
  induction l with
  | nil => simp [hLookup, alLookup]
  | cons p rest ih =>
    obtain ⟨c, o'⟩ := p
    by_cases hc : c = k
    · subst hc
      simp [hLookup, alLookup] at h
    · simp only [hLookup, alLookup, if_neg hc] at h ⊢
      exact ih h

theorem hLookup_append_ne (l : List (Nat × PyObj)) (a k : Nat) (o : PyObj)
    (h : a ≠ k) : hLookup (l ++ [(k, o)]) a = hLookup l a := by
  induction l with
  | nil => simp [hLookup, alLookup, Ne.symm h]
  | cons p rest ih =>
    obtain ⟨c, o'⟩ := p
    by_cases hc : c = a
    · subst hc
      simp [hLookup, alLookup]
    · simp only [hLookup, alLookup, if_neg hc]
      exact ih

theorem getattrH_setattr_ne (h : Heap) (a b : Nat) (name m : PStr) (v : Nat)
    (hb : b ≠ a) : getattrH (setattrH h a name v) b m = getattrH h b m := by
  simp [getattrH, setattrH, hLookup_objUpdate_ne _ _ _ _ _ hb]

theorem getattrH_setattr_self (h : Heap) (a : Nat) (name : PStr) (v : Nat)
    (hsome : (hLookup h.objs a).isSome) :
    getattrH (setattrH h a name v) a name = some v := by
  obtain ⟨o, ho⟩ := Option.isSome_iff_exists.mp hsome
  simp [getattrH, setattrH, hLookup_objUpdate_self, ho, alLookup_update_self]

theorem getattrH_setattr_self_other (h : Heap) (a : Nat) (name m : PStr)
    (v : Nat) (hm : m ≠ name) :
    getattrH (setattrH h a name v) a m = getattrH h a m := by
  simp only [getattrH, setattrH, hLookup_objUpdate_self]
  cases hLookup h.objs a with
  | none => rfl
  | some o => simp [alLookup_update_ne _ _ _ _ hm]

theorem setattrH_idem (h : Heap) (a : Nat) (name : PStr) (v : Nat) :
    setattrH (setattrH h a name v) a name v = setattrH h a name v := by
  have key : ∀ objs : List (Nat × PyObj),
      objUpdate a name v (objUpdate a name v objs) = objUpdate a name v objs := by
    intro objs
    induction objs with
    | nil => simp [objUpdate]
    | cons p rest ih =>
      obtain ⟨c, o⟩ := p
      by_cases hc : c = a
      · subst hc
        simp [objUpdate, alUpdate_idem]
      · simp [objUpdate, hc, ih]
  simp [setattrH, key]

theorem setattrH_next (h : Heap) (a : Nat) (name : PStr) (v : Nat) :
    (setattrH h a name v).next = h.next := rfl

theorem hPayload_setattr (h : Heap) (a b : Nat) (name : PStr) (v : Nat) :
    hPayload (setattrH h a name v) b = hPayload h b := by
  by_cases hb : b = a
  · subst hb
    simp only [hPayload, setattrH, hLookup_objUpdate_self]
    cases hLookup h.objs b <;> rfl
  · simp [hPayload, setattrH, hLookup_objUpdate_ne _ _ _ _ _ hb]

theorem hLookup_isSome_setattr (h : Heap) (a b : Nat) (name : PStr) (v : Nat) :
    (hLookup (setattrH h a name v).objs b).isSome = (hLookup h.objs b).isSome := by
  by_cases hb : b = a
  · subst hb
    simp only [setattrH, hLookup_objUpdate_self]
    cases hLookup h.objs b <;> rfl
  · simp [setattrH, hLookup_objUpdate_ne _ _ _ _ _ hb]

theorem heapWF_setattr (h : Heap) (a : Nat) (name : PStr) (v : Nat)
    (hwf : heapWF h) : heapWF (setattrH h a name v) := by
  refine ⟨hwf.1, fun b hb => ?_⟩
  rw [hLookup_isSome_setattr] at hb
  exact hwf.2 b hb

theorem hLookup_append_isSome (l : List (Nat × PyObj)) (b k : Nat)
    (o : PyObj) (h : (hLookup (l ++ [(k, o)]) b).isSome) :
    (hLookup l b).isSome ∨ b = k := by
  by_cases hbk : b = k
  · exact Or.inr hbk
  · rw [hLookup_append_ne _ _ _ _ hbk] at h
    exact Or.inl h

theorem heapWF_alloc (h : Heap) (p : Payload) (attrs : List (PStr × Nat))
    (hwf : heapWF h) : heapWF (allocObj h p attrs).1 := by
  constructor
  · show 1 ≤ h.next + 1
    exact Nat.le_succ_of_le hwf.1
  · intro b hb
    have hb' : (hLookup (h.objs ++ [(h.next, ⟨p, attrs⟩)]) b).isSome := hb
    rcases hLookup_append_isSome h.objs b h.next ⟨p, attrs⟩ hb' with hcase | hcase
    · have h2 := hwf.2 b hcase
      show 1 ≤ b ∧ b < h.next + 1
      exact ⟨h2.1, Nat.lt_succ_of_lt h2.2⟩
    · subst hcase
      show 1 ≤ h.next ∧ h.next < h.next + 1
      exact ⟨hwf.1, Nat.lt_succ_self _⟩

theorem getattrH_alloc_of_lt (h : Heap) (p : Payload)
    (attrs : List (PStr × Nat)) (b : Nat) (name : PStr) (hb : b ≠ h.next) :
    getattrH (allocObj h p attrs).1 b name = getattrH h b name := by
  simp [getattrH, allocObj, hLookup_append_ne _ _ _ _ hb]

theorem hPayload_alloc_ne (h : Heap) (p : Payload)
    (attrs : List (PStr × Nat)) (b : Nat) (hb : b ≠ h.next) :
    hPayload (allocObj h p attrs).1 b = hPayload h b := by
  simp [hPayload, allocObj, hLookup_append_ne _ _ _ _ hb]

/-! String splitting and joining lemmas. -/

theorem splitOnChar_ne_nil (c : Char) (s : PStr) : splitOnChar c s ≠ [] := by
  cases s with
  | nil => simp [splitOnChar]
  | cons x xs =>
    simp only [splitOnChar]
    cases h : splitOnChar c xs with
    | nil => simp
    | cons p ps =>
      by_cases hx : x = c <;> simp [hx]

theorem joinWith_splitOnChar (c : Char) (s : PStr) :
    joinWith [c] (splitOnChar c s) = s := by
  induction s with
  | nil => simp [splitOnChar, joinWith]
  | cons x xs ih =>
    simp only [splitOnChar]
    cases h : splitOnChar c xs with
    | nil => exact absurd h (splitOnChar_ne_nil c xs)
    | cons p ps =>
      rw [h] at ih
      by_cases hx : x = c
      · subst hx
        simp only [if_pos rfl, joinWith]
        simpa using ih
      · simp only [if_neg hx]
        cases ps with
        | nil =>
          simp only [joinWith] at ih ⊢
          rw [ih]
        | cons q qs =>
          simp only [joinWith] at ih ⊢
          rw [← ih]
          simp

theorem splitOnChar_append_sep (c : Char) (s : PStr) :
    splitOnChar c (s ++ [c]) = splitOnChar c s ++ [[]] := by
  induction s with
  | nil => simp [splitOnChar]
  | cons x xs ih =>
    cases h : splitOnChar c xs with
    | nil => exact absurd h (splitOnChar_ne_nil c xs)
    | cons p ps =>
      have hx2 : splitOnChar c (xs ++ [c]) = p :: (ps ++ [[]]) := by
        rw [ih, h]
        rfl
      simp only [List.cons_append, splitOnChar, h]
      by_cases hx : x = c <;> simp [hx] <;> rw [hx2]

theorem flatten_map_concat (c : Char) (qs : List PStr) (hq : qs ≠ []) :
    (qs.map (fun l => l ++ [c])).flatten = joinWith [c] qs ++ [c] := by
  induction qs with
  | nil => exact absurd rfl hq
  | cons a r ih =>
    cases r with
    | nil => simp [joinWith]
    | cons b t =>
      simp only [List.map_cons, List.flatten_cons] at ih ⊢
      rw [ih (by simp), joinWith]
      simp

theorem flatten_toLines (s : PStr) (h : s.getLastD ' ' = '\n') :
    (toLines s).flatten = s := by
  have hne : s ≠ [] := by
    intro hs
    subst hs
    simp [List.getLastD] at h
  have hlast : s.getLast hne = '\n' := by
    rwa [List.getLastD_eq_getLast?, List.getLast?_eq_getLast s hne,
      Option.getD_some] at h
  have hsplit : s = s.dropLast ++ ['\n'] := by
    conv_lhs => rw [← List.dropLast_append_getLast hne]
    rw [hlast]
  generalize hgen : s.dropLast = s' at hsplit
  rw [toLines, splitlinesP, hsplit, splitOnChar_append_sep]
  have hcond : (splitOnChar '\n' s' ++ [[]]).getLastD ['x'] = ([] : PStr) :=
    List.getLastD_concat _ _ _
  rw [hcond, if_pos rfl, List.dropLast_concat,
    flatten_map_concat _ _ (splitOnChar_ne_nil _ _), joinWith_splitOnChar]

/-! Registry lemmas. -/

theorem exec_nextId (compileOk : PStr → Bool) (src : PStr) (s : PState) :
    (exec_with_source compileOk src s).1.nextId = s.nextId + 1 := by
  by_cases h : compileOk src <;> simp [exec_with_source, h]

theorem exec_evalCache (compileOk : PStr → Bool) (src : PStr) (s : PState) :
    (exec_with_source compileOk src s).1.evalCache
      = alUpdate (keyFor s.nextId) (toLines src) s.evalCache := by
  by_cases h : compileOk src <;> simp [exec_with_source, h]

theorem bindAll_nextId (compileOk : PStr → Bool) (srcs : List PStr) :
    ∀ s : PState, (bindAll compileOk srcs s).nextId = s.nextId + srcs.length := by
  induction srcs with
  | nil => intro s; simp [bindAll]
  | cons src rest ih =>
    intro s
    show (bindAll compileOk rest (exec_with_source compileOk src s).1).nextId
      = s.nextId + (rest.length + 1)
    rw [ih, exec_nextId]
    omega

theorem bindAll_cache_untouched (compileOk : PStr → Bool) (srcs : List PStr) :
    ∀ (s : PState) (k : PStr),
      (∀ j, j < srcs.length → k ≠ keyFor (s.nextId + j)) →
      alLookup k (bindAll compileOk srcs s).evalCache
        = alLookup k s.evalCache := by
  induction srcs with
  | nil => intro s k _; simp [bindAll]
  | cons src rest ih =>
    intro s k hk
    show alLookup k (bindAll compileOk rest
        (exec_with_source compileOk src s).1).evalCache = _
    rw [ih _ k (by
      intro j hj
      rw [exec_nextId]
      have := hk (j + 1) (by simpa using Nat.succ_lt_succ hj)
      simpa [Nat.add_assoc, Nat.add_comm 1 j] using this)]
    rw [exec_evalCache]
    exact alLookup_update_ne _ _ _ _ (by simpa using hk 0 (Nat.succ_pos _))

theorem bindAll_cache_issued (compileOk : PStr → Bool) (srcs : List PStr) :
    ∀ (s : PState) (i : Nat) (hi : i < srcs.length),
      alLookup (keyFor (s.nextId + i)) (bindAll compileOk srcs s).evalCache
        = some (toLines (srcs.get ⟨i, hi⟩)) := by
  induction srcs with
  | nil => intro s i hi; simp at hi
  | cons src rest ih =>
    intro s i hi
    show alLookup (keyFor (s.nextId + i)) (bindAll compileOk rest
        (exec_with_source compileOk src s).1).evalCache = _
    cases i with
    | zero =>
      rw [bindAll_cache_untouched compileOk rest _ _ (by
        intro j hj
        rw [exec_nextId]
        intro hcontra
        have := keyFor_injective hcontra
        omega)]
      rw [exec_evalCache]
      simpa using alLookup_update_self _ _ _
    | succ j =>
      have hj : j < rest.length := by simpa using Nat.lt_of_succ_lt_succ hi
      have := ih (exec_with_source compileOk src s).1 j hj
      rw [exec_nextId] at this
      have harith : s.nextId + (j + 1) = s.nextId + 1 + j := by omega
      rw [harith, this]
      rfl

/-- C5: the code synthesizer is a pure function of the emitted body lines,
result expression and free-variable names: any two linearizations agreeing
on those three inputs synthesize byte-identical source text; the synthesizer
takes no clock, randomness or registry input at all. -/
theorem synthesize_deterministic (gd gd' : GraphData)
    (hb : gd.pcBody = gd'.pcBody) (hr : gd.pcResult = gd'.pcResult)
    (hf : gd.pcFreeVars = gd'.pcFreeVars) :
    synthesizeCode gd.pcBody gd.pcResult gd.pcFreeVars
      = synthesizeCode gd'.pcBody gd'.pcResult gd'.pcFreeVars := by
  rw [hb, hr, hf]

theorem synthesize_deterministic_witness :
    synthesizeCode
        ({ nodes := [], pcBody := "r = x".data, pcResult := ['r'],
           pcFreeVars := [['x']] } : GraphData).pcBody
        ({ nodes := [], pcBody := "r = x".data, pcResult := ['r'],
           pcFreeVars := [['x']] } : GraphData).pcResult
        ({ nodes := [], pcBody := "r = x".data, pcResult := ['r'],
           pcFreeVars := [['x']] } : GraphData).pcFreeVars
      = synthesizeCode
        ({ nodes := [⟨opGetParam, ['w']⟩], pcBody := "r = x".data,
           pcResult := ['r'], pcFreeVars := [['x']] } : GraphData).pcBody
        ({ nodes := [⟨opGetParam, ['w']⟩], pcBody := "r = x".data,
           pcResult := ['r'], pcFreeVars := [['x']] } : GraphData).pcResult
        ({ nodes := [⟨opGetParam, ['w']⟩], pcBody := "r = x".data,
           pcResult := ['r'], pcFreeVars := [['x']] } : GraphData).pcFreeVars :=
  synthesize_deterministic _ _ rfl rfl rfl

/-- C10: binding is not atomic on failure: when compilation of a source
fails, exec_with_source has already advanced the process-wide counter and
already stored the failing source's lines under the freshly allocated key;
both persist, and no function value results. -/
theorem exec_with_source_failure_persists (compileOk : PStr → Bool)
    (src : PStr) (s : PState) (hfail : compileOk src = false) :
    (exec_with_source compileOk src s).1.nextId = s.nextId + 1
    ∧ alLookup (keyFor s.nextId)
        (exec_with_source compileOk src s).1.evalCache = some (toLines src)
    ∧ (exec_with_source compileOk src s).2 = none := by
  refine ⟨exec_nextId _ _ _, ?_, ?_⟩
  · rw [exec_evalCache]
    exact alLookup_update_self _ _ _
  · simp [exec_with_source, hfail]

theorem exec_with_source_failure_persists_witness :
    (exec_with_source (fun _ => false) ['x'] initState).1.nextId
        = initState.nextId + 1
    ∧ alLookup (keyFor initState.nextId)
        (exec_with_source (fun _ => false) ['x'] initState).1.evalCache
        = some (toLines ['x'])
    ∧ (exec_with_source (fun _ => false) ['x'] initState).2 = none :=
  exec_with_source_failure_persists (fun _ => false) ['x'] initState rfl

/-- C6 counterexample: binding the one-character source x (no trailing
newline) stores the single line x-newline, so resolving the issued key
yields a line list whose text is x-newline, not the text x that was bound:
resolution does not return exactly the bound source text. -/
theorem bind_resolve_not_exact_cex :
    patched_getline
        (exec_with_source (fun _ => true) ['x'] initState).1.evalCache
        (fun _ => []) (keyFor 0) = [['x', '\n']]
    ∧ ([['x', '\n']] : List PStr).flatten ≠ ['x'] := by
  exact ⟨rfl, by decide⟩

/-- C6 (amended): two binding events allocate distinct synthetic keys drawn
from the monotonically increasing process-wide counter, each key resolves
through the registry to the lines stored for exactly the source bound under
it (each line carrying an appended newline), and for sources ending in a
newline, as synthesized sources always do, the resolved lines concatenate
back to exactly the bound text. -/
theorem bind_unique_keys_resolve (compileOk : PStr → Bool)
    (src1 src2 : PStr) (s : PState) (orig : PStr → List PStr)
    (h1 : src1.getLastD ' ' = '\n') (h2 : src2.getLastD ' ' = '\n') :
    keyFor s.nextId ≠ keyFor (exec_with_source compileOk src1 s).1.nextId
    ∧ (exec_with_source compileOk src1 s).1.nextId = s.nextId + 1
    ∧ (exec_with_source compileOk src2
        (exec_with_source compileOk src1 s).1).1.nextId = s.nextId + 2
    ∧ patched_getline
        (exec_with_source compileOk src2
          (exec_with_source compileOk src1 s).1).1.evalCache orig
        (keyFor s.nextId) = toLines src1
    ∧ patched_getline
        (exec_with_source compileOk src2
          (exec_with_source compileOk src1 s).1).1.evalCache orig
        (keyFor (s.nextId + 1)) = toLines src2
    ∧ (toLines src1).flatten = src1
    ∧ (toLines src2).flatten = src2 := by
  have hn1 : (exec_with_source compileOk src1 s).1.nextId = s.nextId + 1 :=
    exec_nextId _ _ _
  have hn2 : (exec_with_source compileOk src2
      (exec_with_source compileOk src1 s).1).1.nextId = s.nextId + 2 := by
    rw [exec_nextId, hn1]
  have hkne : keyFor s.nextId ≠ keyFor (s.nextId + 1) := by
    intro hcontra
    have := keyFor_injective hcontra
    omega
  have hc2 : (exec_with_source compileOk src2
      (exec_with_source compileOk src1 s).1).1.evalCache
      = alUpdate (keyFor (s.nextId + 1)) (toLines src2)
          (alUpdate (keyFor s.nextId) (toLines src1) s.evalCache) := by
    rw [exec_evalCache, hn1, exec_evalCache]
  refine ⟨by rw [hn1]; exact hkne, hn1, hn2, ?_, ?_,
    flatten_toLines src1 h1, flatten_toLines src2 h2⟩
  · rw [patched_getline, hc2,
      alLookup_update_ne _ _ _ _ hkne, alLookup_update_self]
  · rw [patched_getline, hc2, alLookup_update_self]

theorem bind_unique_keys_resolve_witness :
    keyFor initState.nextId
        ≠ keyFor (exec_with_source (fun _ => true) "a\n".data
            initState).1.nextId
    ∧ (exec_with_source (fun _ => true) "a\n".data initState).1.nextId
        = initState.nextId + 1
    ∧ (exec_with_source (fun _ => true) "b\n".data
        (exec_with_source (fun _ => true) "a\n".data initState).1).1.nextId
        = initState.nextId + 2
    ∧ patched_getline
        (exec_with_source (fun _ => true) "b\n".data
          (exec_with_source (fun _ => true) "a\n".data
            initState).1).1.evalCache (fun _ => [])
        (keyFor initState.nextId) = toLines "a\n".data
    ∧ patched_getline
        (exec_with_source (fun _ => true) "b\n".data
          (exec_with_source (fun _ => true) "a\n".data
            initState).1).1.evalCache (fun _ => [])
        (keyFor (initState.nextId + 1)) = toLines "b\n".data
    ∧ (toLines "a\n".data).flatten = "a\n".data
    ∧ (toLines "b\n".data).flatten = "b\n".data :=
  bind_unique_keys_resolve (fun _ => true) "a\n".data "b\n".data initState
    (fun _ => []) rfl rfl

/-- C9: after any sequence of binding events from process start, a key
issued at the i-th binding event resolves through patched_getline to the
lines stored for that event, never touching the default resolution path,
while every key not issued by the registry falls through to the original
getlines with its result unchanged. -/
theorem patched_getline_issued_and_default (compileOk : PStr → Bool)
    (srcs : List PStr) (s : PState) (orig : PStr → List PStr)
    (hcache : s.evalCache = []) :
    (∀ i (hi : i < srcs.length),
        patched_getline (bindAll compileOk srcs s).evalCache orig
          (keyFor (s.nextId + i)) = toLines (srcs.get ⟨i, hi⟩))
    ∧ ∀ k, (∀ j, j < srcs.length → k ≠ keyFor (s.nextId + j)) →
        patched_getline (bindAll compileOk srcs s).evalCache orig k
          = orig k := by
  constructor
  · intro i hi
    have h := bindAll_cache_issued compileOk srcs s i hi
    rw [patched_getline, h]
  · intro k hk
    have h := bindAll_cache_untouched compileOk srcs s k hk
    rw [patched_getline, h, hcache]
    rfl

theorem patched_getline_issued_and_default_witness :
    (∀ i (hi : i < ([['a'], ['b', '\n']] : List PStr).length),
        patched_getline
          (bindAll (fun _ => true) [['a'], ['b', '\n']] initState).evalCache
          (fun _ => [['z']]) (keyFor (initState.nextId + i))
          = toLines (([['a'], ['b', '\n']] : List PStr).get ⟨i, hi⟩))
    ∧ ∀ k, (∀ j, j < ([['a'], ['b', '\n']] : List PStr).length →
          k ≠ keyFor (initState.nextId + j)) →
        patched_getline
          (bindAll (fun _ => true) [['a'], ['b', '\n']] initState).evalCache
          (fun _ => [['z']]) k = (fun _ => [['z']]) k :=
  patched_getline_issued_and_default (fun _ => true) [['a'], ['b', '\n']]
    initState (fun _ => [['z']]) rfl

/-! Split/join lemmas for the synthesized source's line structure. -/

theorem splitOnChar_not_mem (c : Char) (a : PStr) (ha : c ∉ a) :
    splitOnChar c a = [a] := by
  induction a with
  | nil => rfl
  | cons x xs ih =>
    have hx : x ≠ c := fun h => ha (h ▸ List.mem_cons_self x xs)
    have ha' : c ∉ xs := fun h => ha (List.mem_cons_of_mem _ h)
    simp only [splitOnChar, ih ha']
    simp [hx]

theorem splitOnChar_append_cons (c : Char) (a b : PStr) (ha : c ∉ a) :
    splitOnChar c (a ++ c :: b) = a :: splitOnChar c b := by
  induction a with
  | nil =>
    simp only [List.nil_append, splitOnChar]
    cases h : splitOnChar c b with
    | nil => exact absurd h (splitOnChar_ne_nil c b)
    | cons p ps => simp
  | cons x xs ih =>
    have hx : x ≠ c := fun h => ha (h ▸ List.mem_cons_self x xs)
    have ha' : c ∉ xs := fun h => ha (List.mem_cons_of_mem _ h)
    simp only [List.cons_append, splitOnChar, List.append_eq]
    rw [ih ha']
    simp [hx]

theorem splitOnChar_joinWith (c : Char) (ps : List PStr) :
    ps ≠ [] → (∀ p ∈ ps, c ∉ p) → splitOnChar c (joinWith [c] ps) = ps := by
  induction ps with
  | nil => intro hne _; exact absurd rfl hne
  | cons p r ih =>
    intro _ hp
    cases r with
    | nil => simp [joinWith, splitOnChar_not_mem c p (hp p (by simp))]
    | cons q t =>
      have hshape : joinWith [c] (p :: q :: t)
          = p ++ c :: joinWith [c] (q :: t) := by
        simp [joinWith]
      rw [hshape, splitOnChar_append_cons c p _ (hp p (by simp)),
        ih (by simp) (fun x hx => hp x (List.mem_cons_of_mem _ hx))]

theorem splitOnChar_joinWith_append (c : Char) (ps : List PStr) (tail : PStr) :
    ps ≠ [] → (∀ p ∈ ps, c ∉ p) →
    splitOnChar c (joinWith [c] ps ++ c :: tail)
      = ps ++ splitOnChar c tail := by
  induction ps with
  | nil => intro hne _; exact absurd rfl hne
  | cons p r ih =>
    intro _ hp
    cases r with
    | nil =>
      simp only [joinWith]
      rw [splitOnChar_append_cons c p tail (hp p (by simp))]
      rfl
    | cons q t =>
      have hshape : joinWith [c] (p :: q :: t) ++ c :: tail
          = p ++ c :: (joinWith [c] (q :: t) ++ c :: tail) := by
        simp [joinWith]
      rw [hshape, splitOnChar_append_cons c p _ (hp p (by simp)),
        ih (by simp) (fun x hx => hp x (List.mem_cons_of_mem _ hx))]
      rfl

theorem not_mem_joinWith (c : Char) (sep : PStr) (ps : List PStr)
    (hsep : c ∉ sep) (hp : ∀ p ∈ ps, c ∉ p) : c ∉ joinWith sep ps := by
  induction ps with
  | nil => simp [joinWith]
  | cons p r ih =>
    cases r with
    | nil =>
      simpa [joinWith] using hp p (by simp)
    | cons q t =>
      simp only [joinWith, List.mem_append, not_or]
      refine ⟨⟨hp p (by simp), hsep⟩, ?_⟩
      have := ih (fun x hx => hp x (List.mem_cons_of_mem _ hx))
      simpa [joinWith] using this

/-- C8: the synthesized source is one function definition: its first line
declares parameters self followed by the free-variable names in the given
order, then come exactly the body lines each indented one level (four
spaces), then the blank line the f-string template leaves between the body
slot and the return, then a return statement of the result expression at
that same indentation, then the empty tail produced by the terminating
newline. -/
theorem synthesize_structure (bodyLines : List PStr) (result : PStr)
    (fv : List PStr) (hbody : bodyLines ≠ [])
    (hlines : ∀ l ∈ bodyLines, '\n' ∉ l) (hres : '\n' ∉ result)
    (hfv : ∀ v ∈ fv, '\n' ∉ v) :
    splitOnChar '\n' (synthesizeCode (joinWith ['\n'] bodyLines) result fv)
      = ("def forward(self, ".data ++ joinWith ", ".data fv ++ "):".data)
        :: bodyLines.map (fun l => "    ".data ++ l)
        ++ [[], "    return ".data ++ result, []] := by
  have hsplitBody : splitOnChar '\n' (joinWith ['\n'] bodyLines)
      = bodyLines := splitOnChar_joinWith '\n' bodyLines hbody hlines
  have hmapped : ∀ l ∈ bodyLines.map (fun l => "    ".data ++ l), '\n' ∉ l := by
    intro l hl
    rcases List.mem_map.mp hl with ⟨l0, hl0, rfl⟩
    simp only [List.mem_append, not_or]
    exact ⟨by decide, hlines l0 hl0⟩
  have hmappedne : bodyLines.map (fun l => "    ".data ++ l) ≠ [] := by
    simpa using hbody
  have hH : '\n' ∉ "def forward(self, ".data ++ joinWith ", ".data fv
      ++ "):".data := by
    simp only [List.mem_append, not_or]
    refine ⟨⟨by decide, ?_⟩, by decide⟩
    exact not_mem_joinWith _ _ _ (by decide) hfv
  have hT : '\n' ∉ "    return ".data ++ result := by
    simp only [List.mem_append, not_or]
    exact ⟨by decide, hres⟩
  have hE : '\n' ∉ ([] : PStr) := by simp
  have hshape : synthesizeCode (joinWith ['\n'] bodyLines) result fv
      = ("def forward(self, ".data ++ joinWith ", ".data fv ++ "):".data)
        ++ '\n' :: (joinWith ['\n'] (bodyLines.map (fun l => "    ".data ++ l))
        ++ '\n' :: (([] : PStr)
        ++ '\n' :: (("    return ".data ++ result) ++ '\n' :: []))) := by
    rw [synthesizeCode]
    rw [hsplitBody]
    simp [List.append_assoc]
  rw [hshape, splitOnChar_append_cons _ _ _ hH,
    splitOnChar_joinWith_append _ _ _ hmappedne hmapped,
    splitOnChar_append_cons _ _ _ hE,
    splitOnChar_append_cons _ _ _ hT]
  rfl

theorem synthesize_structure_witness :
    splitOnChar '\n'
        (synthesizeCode (joinWith ['\n'] ["r = self.linear(x)".data])
          ['r'] [['x']])
      = ("def forward(self, ".data ++ joinWith ", ".data [['x']]
          ++ "):".data)
        :: (["r = self.linear(x)".data] : List PStr).map
            (fun l => "    ".data ++ l)
        ++ [[], "    return ".data ++ ['r'], []] :=
  synthesize_structure ["r = self.linear(x)".data] ['r'] [['x']]
    (by decide) (by decide) (by decide) (by decide)

theorem hLookup_isSome_mem (objs : List (Nat × PyObj)) (a : Nat)
    (h : (hLookup objs a).isSome) : a ∈ objs.map Prod.fst := by
  induction objs with
  | nil => simp [hLookup, alLookup] at h
  | cons p rest ih =>
    obtain ⟨c, o⟩ := p
    by_cases hc : c = a
    · subst hc
      simp
    · simp only [hLookup, alLookup, if_neg hc] at h
      simp [ih h]

theorem getattrH_congr (h h' : Heap) (a : Nat)
    (he : hLookup h'.objs a = hLookup h.objs a) (nm : PStr) :
    getattrH h' a nm = getattrH h a nm := by
  unfold getattrH
  rw [he]

theorem hLookup_allocSet (h : Heap) (tm : Nat) (item : PStr) (a : Nat)
    (ha1 : a ≠ tm) (ha2 : a ≠ h.next) :
    hLookup (setattrH (allocObj h .moduleP []).1 tm item h.next).objs a
      = hLookup h.objs a := by
  show hLookup (objUpdate tm item h.next
      (allocObj h .moduleP []).1.objs) a = hLookup h.objs a
  rw [hLookup_objUpdate_ne _ _ _ _ _ ha1]
  exact hLookup_append_ne _ _ _ _ ha2

theorem hLookup_fresh_none (h : Heap) (hwf : heapWF h) :
    hLookup h.objs h.next = none := by
  cases hx : hLookup h.objs h.next with
  | none => rfl
  | some o =>
    have h2 := (hwf.2 h.next (by simp [hx])).2
    exact absurd h2 (lt_irrefl _)

theorem hLookup_allocSet_fresh (h : Heap) (tm : Nat) (item : PStr)
    (hwf : heapWF h) (htm : tm ≠ h.next) :
    hLookup (setattrH (allocObj h .moduleP []).1 tm item h.next).objs h.next
      = some ⟨.moduleP, []⟩ := by
  show hLookup (objUpdate tm item h.next
      (allocObj h .moduleP []).1.objs) h.next = some ⟨.moduleP, []⟩
  rw [hLookup_objUpdate_ne _ _ _ _ _ (Ne.symm htm)]
  exact hLookup_append_self _ _ _ (hLookup_fresh_none h hwf)

theorem allocObj_snd (h : Heap) (p : Payload) (attrs : List (PStr × Nat)) :
    (allocObj h p attrs).2 = h.next := rfl

theorem setattrH_next_eq (h : Heap) (a : Nat) (nm : PStr) (v : Nat) :
    (setattrH h a nm v).next = h.next := rfl

theorem getattrH_some_isSome {h : Heap} {x : Nat} {nm : PStr} {v : Nat}
    (hg : getattrH h x nm = some v) : (hLookup h.objs x).isSome := by
  unfold getattrH at hg
  cases hx : hLookup h.objs x with
  | none =>
    rw [hx] at hg
    simp at hg
  | some o => simp [hx]

theorem allocObj_fst_next (h : Heap) (p : Payload)
    (attrs : List (PStr × Nat)) : (allocObj h p attrs).1.next = h.next + 1 :=
  rfl

/-- Walk-level idempotence of the transplant: if one run of the _copy_attr
walk succeeds, then rerunning it on the resulting heap succeeds and returns
that heap unchanged.  The template side and the target side are described by
predicates Fm and Tg on addresses, closed under attribute lookup, disjoint,
bounded by the heap, with the target side ranked (rank strictly decreases
along attribute edges, the semantic rendering of the spec's tree-of-slots
container model).  Also provides allocation monotonicity and a frame: only
target-side or fresh objects are ever written. -/
theorem copyLoop_idem_aux (pre : List PStr) :
    ∀ (field : PStr) (h : Heap) (fm tm : Nat) (Fm Tg : Nat → Prop)
      (rk : Nat → Nat) (h' : Heap),
      heapWF h →
      (∀ a, Fm a ∨ Tg a → 1 ≤ a ∧ a < h.next ∧ (hLookup h.objs a).isSome) →
      (∀ a, ¬(Fm a ∧ Tg a)) →
      (∀ a b nm, Fm a → getattrH h a nm = some b → Fm b) →
      (∀ a b nm, Tg a → getattrH h a nm = some b → Tg b ∧ rk b < rk a) →
      Fm fm → Tg tm →
      copyLoop h fm tm pre field = .ok h' →
      copyLoop h' fm tm pre field = .ok h'
      ∧ h.next ≤ h'.next
      ∧ (∀ a, a < h.next → ¬ Tg a → hLookup h'.objs a = hLookup h.objs a) := by
  induction pre with
  | nil =>
    intro field h fm tm Fm Tg rk h' hwf hside hdisj hFmCl hTgCl hfm htm hrun
    have hfmtm : fm ≠ tm := fun he => hdisj fm ⟨hfm, he ▸ htm⟩
    simp only [copyLoop] at hrun
    cases hgf : getattrH h fm field with
    | none =>
      rw [hgf] at hrun
      exact absurd hrun (by simp)
    | some v =>
      rw [hgf] at hrun
      have hh' : setattrH h tm field v = h' := by
        injection hrun
      subst hh'
      refine ⟨?_, le_refl _, ?_⟩
      · simp only [copyLoop, getattrH_setattr_ne h tm fm field field v hfmtm,
          hgf]
        rw [setattrH_idem]
      · intro a ha hTga
        have hatm : a ≠ tm := fun he => hTga (he ▸ htm)
        exact hLookup_objUpdate_ne _ _ _ _ _ hatm
  | cons item rest ih =>
    intro field h fm tm Fm Tg rk h' hwf hside hdisj hFmCl hTgCl hfm htm hrun
    have hfmtm : fm ≠ tm := fun he => hdisj fm ⟨hfm, he ▸ htm⟩
    have hfmB := hside fm (Or.inl hfm)
    have htmB := hside tm (Or.inr htm)
    cases hgf : getattrH h fm item with
    | none =>
      simp only [copyLoop, hgf] at hrun
      exact absurd hrun (by simp)
    | some f =>
      have hFf : Fm f := hFmCl fm f item hfm hgf
      have hfB := hside f (Or.inl hFf)
      simp only [copyLoop, hgf] at hrun
      cases hgt : getattrH h tm item with
      | some t =>
        rw [hgt] at hrun
        simp only [Option.getD_some] at hrun
        have hTt := hTgCl tm t item htm hgt
        by_cases hft : f = t
        · rw [if_pos hft] at hrun
          have hh' : h = h' := by injection hrun
          subst hh'
          refine ⟨?_, le_refl _, fun a _ _ => rfl⟩
          simp only [copyLoop, hgf, hgt, Option.getD_some, if_pos hft]
        · rw [if_neg hft] at hrun
          have htB := hside t (Or.inr hTt.1)
          have htne : t ≠ noneAddr := by
            have h1 := htB.1
            show t ≠ 0
            omega
          rw [if_neg htne] at hrun
          obtain ⟨hrun2, hnext2, hframe2⟩ :=
            ih field h f t Fm (fun a => Tg a ∧ rk a ≤ rk t) rk h' hwf
              (fun a hc => hside a (hc.imp id And.left))
              (fun a hc => hdisj a ⟨hc.1, hc.2.1⟩)
              hFmCl
              (fun a b nm hta hget =>
                have hb := hTgCl a b nm hta.1 hget
                ⟨⟨hb.1, le_trans (Nat.le_of_lt hb.2)
                  (le_trans hta.2 (le_refl _))⟩, hb.2⟩)
              hFf ⟨hTt.1, le_refl _⟩ hrun
          have hfmKeep : hLookup h'.objs fm = hLookup h.objs fm :=
            hframe2 fm hfmB.2.1 (fun hc => hdisj fm ⟨hfm, hc.1⟩)
          have htmKeep : hLookup h'.objs tm = hLookup h.objs tm :=
            hframe2 tm htmB.2.1 (fun hc => absurd hc.2 (Nat.not_le.mpr hTt.2))
          refine ⟨?_, hnext2, ?_⟩
          · simp only [copyLoop, getattrH_congr h h' fm hfmKeep item, hgf,
              getattrH_congr h h' tm htmKeep item, hgt, Option.getD_some,
              if_neg hft, if_neg htne]
            exact hrun2
          · intro a ha hTga
            exact hframe2 a ha (fun hc => hTga hc.1)
      | none =>
        rw [hgt] at hrun
        simp only [Option.getD_none] at hrun
        have hf0 : f ≠ noneAddr := by
          have h1 := hfB.1
          exact Nat.pos_iff_ne_zero.mp h1
        rw [if_neg hf0] at hrun
        have hrun' : copyLoop (setattrH (allocObj h .moduleP []).1 tm item
            h.next) f h.next rest field = .ok h' := by
          simpa [allocObj_snd] using hrun
        have htmfresh : tm ≠ h.next := by
          have := htmB.2.1
          omega
        have hwf2 : heapWF (setattrH (allocObj h .moduleP []).1 tm item
            h.next) :=
          heapWF_setattr _ _ _ _ (heapWF_alloc h .moduleP [] hwf)
        have hnext2eq : (setattrH (allocObj h .moduleP []).1 tm item
            h.next).next = h.next + 1 := rfl
        obtain ⟨hrun2, hnext2, hframe2⟩ :=
          ih field
            (setattrH (allocObj h .moduleP []).1 tm item h.next)
            f h.next Fm (fun a => a = h.next) rk h' hwf2
            (by
              intro a hc
              rcases hc with hFa | hTn
              · have hb := hside a (Or.inl hFa)
                have hatm : a ≠ tm := fun he => hdisj a ⟨hFa, he ▸ htm⟩
                have hafresh : a ≠ h.next := by omega
                rw [hnext2eq, hLookup_allocSet h tm item a hatm hafresh]
                exact ⟨hb.1, by omega, hb.2.2⟩
              · subst hTn
                rw [hnext2eq,
                  hLookup_allocSet_fresh h tm item hwf htmfresh]
                exact ⟨hwf.1, by omega, by simp⟩)
            (by
              intro a hc
              obtain ⟨hFa, hTn⟩ := hc
              subst hTn
              have := (hside _ (Or.inl hFa)).2.1
              omega)
            (by
              intro a b nm hFa hget
              have hatm : a ≠ tm := fun he => hdisj a ⟨hFa, he ▸ htm⟩
              have hafresh : a ≠ h.next := by
                have := (hside a (Or.inl hFa)).2.1
                omega
              rw [getattrH_congr _ _ a
                (hLookup_allocSet h tm item a hatm hafresh) nm] at hget
              exact hFmCl a b nm hFa hget)
            (by
              intro a b nm hTn hget
              subst hTn
              rw [getattrH] at hget
              rw [hLookup_allocSet_fresh h tm item hwf htmfresh] at hget
              simp [alLookup] at hget)
            hFf rfl hrun'
        have hfmKeep : hLookup h'.objs fm = hLookup h.objs fm := by
          have hstep := hframe2 fm (by rw [hnext2eq]; omega)
            (by
              intro hc
              have := hfmB.2.1
              omega)
          rw [hstep, hLookup_allocSet h tm item fm hfmtm (by
            have := hfmB.2.1
            omega)]
        have htmKeep : hLookup h'.objs tm
            = hLookup (setattrH (allocObj h .moduleP []).1 tm item
                h.next).objs tm := by
          exact hframe2 tm (by rw [hnext2eq]; omega) (by
            intro hc
            exact htmfresh hc)
        refine ⟨?_, by rw [hnext2eq] at hnext2; omega, ?_⟩
        · simp only [copyLoop, getattrH_congr h h' fm hfmKeep item, hgf]
          have hgt2 : getattrH h' tm item = some h.next := by
            rw [getattrH_congr _ _ tm htmKeep item]
            have hsome1 : (hLookup (allocObj h .moduleP []).1.objs tm).isSome := by
              have := htmB.2.2
              exact (by
                show (hLookup (h.objs ++ [(h.next, ⟨.moduleP, []⟩)]) tm).isSome
                rw [hLookup_append_of_isSome _ _ _ _ this]
                exact this)
            exact getattrH_setattr_self _ _ _ _ hsome1
          rw [hgt2]
          simp only [Option.getD_some]
          have hfne : f ≠ h.next := by
            have := hfB.2.1
            omega
          rw [if_neg hfne]
          have hne0 : h.next ≠ noneAddr := by
            have h1 := hwf.1
            show h.next ≠ 0
            omega
          rw [if_neg hne0]
          exact hrun2
        · intro a ha hTga
          have hatm : a ≠ tm := fun he => hTga (he ▸ htm)
          have hafresh : a ≠ h.next := by omega
          have hstep := hframe2 a (by rw [hnext2eq]; omega) hafresh
          rw [hstep, hLookup_allocSet h tm item a hatm hafresh]

/-- C2: transplant idempotence.  For containers matching the spec's data
model — the template's objects and the target's objects are disjoint address
sets, each closed under attribute lookup, and the target side carries a rank
that strictly decreases along attribute edges (a tree of slots has such a
rank; a cyclic object graph does not) — a successful _copy_attr run leaves a
heap on which running the very same _copy_attr again succeeds and returns
that heap unchanged.  The walk's short-circuit compares addresses (reference
identity); no value comparison occurs anywhere in the embedding. -/
theorem copyAttr_twice_eq_once (h h' : Heap) (fm tm : Nat) (path : PStr)
    (Fm Tg : Nat → Prop) (rk : Nat → Nat)
    (hwf : heapWF h)
    (hside : ∀ a, Fm a ∨ Tg a → 1 ≤ a ∧ a < h.next ∧ (hLookup h.objs a).isSome)
    (hdisj : ∀ a, ¬(Fm a ∧ Tg a))
    (hFmCl : ∀ a b nm, Fm a → getattrH h a nm = some b → Fm b)
    (hTgCl : ∀ a b nm, Tg a → getattrH h a nm = some b → Tg b ∧ rk b < rk a)
    (hfm : Fm fm) (htm : Tg tm)
    (hrun : copyAttr h fm tm path = .ok h') :
    copyAttr h' fm tm path = .ok h' := by
  unfold copyAttr at hrun ⊢
  exact (copyLoop_idem_aux (splitOnChar '.' path).dropLast
    ((splitOnChar '.' path).getLastD []) h fm tm Fm Tg rk h'
    hwf hside hdisj hFmCl hTgCl hfm htm hrun).1

theorem copyAttr_twice_eq_once_witness :
    copyAttr
      ({ objs := [ (1, ⟨.moduleP, [(['a'], 2)]⟩),
                   (2, ⟨.moduleP, [(['w'], 4)]⟩),
                   (3, ⟨.moduleP, [(['a'], 5)]⟩),
                   (4, ⟨.leafP 0, []⟩),
                   (5, ⟨.moduleP, [(['w'], 4)]⟩) ], next := 6 } : Heap)
      1 3 "a.w".data
    = .ok ({ objs := [ (1, ⟨.moduleP, [(['a'], 2)]⟩),
                       (2, ⟨.moduleP, [(['w'], 4)]⟩),
                       (3, ⟨.moduleP, [(['a'], 5)]⟩),
                       (4, ⟨.leafP 0, []⟩),
                       (5, ⟨.moduleP, [(['w'], 4)]⟩) ], next := 6 } : Heap) := by
  have hbase : copyAttr
      ({ objs := [ (1, ⟨.moduleP, [(['a'], 2)]⟩),
                   (2, ⟨.moduleP, [(['w'], 4)]⟩),
                   (3, ⟨.moduleP, []⟩),
                   (4, ⟨.leafP 0, []⟩) ], next := 5 } : Heap)
      1 3 "a.w".data
      = .ok ({ objs := [ (1, ⟨.moduleP, [(['a'], 2)]⟩),
                         (2, ⟨.moduleP, [(['w'], 4)]⟩),
                         (3, ⟨.moduleP, [(['a'], 5)]⟩),
                         (4, ⟨.leafP 0, []⟩),
                         (5, ⟨.moduleP, [(['w'], 4)]⟩) ], next := 6 } : Heap) := rfl
  have hmain := copyAttr_twice_eq_once
    ({ objs := [ (1, ⟨.moduleP, [(['a'], 2)]⟩),
                 (2, ⟨.moduleP, [(['w'], 4)]⟩),
                 (3, ⟨.moduleP, []⟩),
                 (4, ⟨.leafP 0, []⟩) ], next := 5 } : Heap)
    ({ objs := [ (1, ⟨.moduleP, [(['a'], 2)]⟩),
                 (2, ⟨.moduleP, [(['w'], 4)]⟩),
                 (3, ⟨.moduleP, [(['a'], 5)]⟩),
                 (4, ⟨.leafP 0, []⟩),
                 (5, ⟨.moduleP, [(['w'], 4)]⟩) ], next := 6 } : Heap)
    1 3 "a.w".data
    (fun a => a = 1 ∨ a = 2 ∨ a = 4) (fun a => a = 3) (fun _ => 0)
    (by
      constructor
      · decide
      · intro a ha
        have hm := hLookup_isSome_mem _ _ ha
        simp at hm
        rcases hm with rfl | rfl | rfl | rfl <;> decide)
    (by
      intro a hc
      rcases hc with (rfl | rfl | rfl) | rfl <;>
        exact ⟨by decide, by decide, by decide⟩)
    (by
      intro a hc
      rcases hc with ⟨hf | hf | hf, ht⟩ <;> omega)
    (by
      intro a b nm hfa hget
      rcases hfa with rfl | rfl | rfl
      · simp [getattrH, hLookup, alLookup] at hget
        omega
      · simp [getattrH, hLookup, alLookup] at hget
        omega
      · simp [getattrH, hLookup, alLookup] at hget)
    (by
      intro a b nm hta hget
      subst hta
      simp [getattrH, hLookup, alLookup] at hget)
    (Or.inl rfl) rfl hbase
  exact hmain

theorem copyAttr_ab (h : Heap) (tmpl tgt A B : Nat) (a b : PStr)
    (hwf : heapWF h)
    (hadot : '.' ∉ a) (hbdot : '.' ∉ b)
    (hga : getattrH h tmpl a = some A)
    (hgb : getattrH h A b = some B)
    (htgt : hLookup h.objs tgt = some ⟨.moduleP, []⟩)
    (hna : A ≠ tgt) :
    copyAttr h tmpl tgt (a ++ ['.'] ++ b)
      = .ok (setattrH (setattrH (allocObj h .moduleP []).1 tgt a h.next)
          h.next b B) := by
  have hAB := hwf.2 A (getattrH_some_isSome hgb)
  have hA0 : A ≠ noneAddr := by
    show A ≠ 0
    omega
  have hAN : A ≠ h.next := by omega
  have htgta : getattrH h tgt a = none := by simp [getattrH, htgt, alLookup]
  have hsplit : splitOnChar '.' (a ++ ['.'] ++ b) = [a, b] := by
    have he : a ++ ['.'] ++ b = a ++ '.' :: b := by simp
    rw [he, splitOnChar_append_cons _ _ _ hadot, splitOnChar_not_mem _ _ hbdot]
  unfold copyAttr
  rw [hsplit]
  show copyLoop h tmpl tgt [a] b = _
  simp only [copyLoop, hga, htgta, Option.getD_none, allocObj_snd]
  rw [if_neg hA0, if_true]
  have hAkeep : hLookup (setattrH (allocObj h .moduleP []).1 tgt a
      h.next).objs A = hLookup h.objs A := hLookup_allocSet h tgt a A hna hAN
  have hread : getattrH (setattrH (allocObj h .moduleP []).1 tgt a h.next)
      A b = some B := by
    rw [getattrH_congr _ _ A hAkeep, hgb]
  simp only [copyLoop, hread]

theorem copyAttr_ab_then_abw (h : Heap) (tmpl tgt A B : Nat) (a b w : PStr)
    (hwf : heapWF h)
    (hadot : '.' ∉ a) (hbdot : '.' ∉ b) (hwdot : '.' ∉ w)
    (hga : getattrH h tmpl a = some A)
    (hgb : getattrH h A b = some B)
    (htgt : hLookup h.objs tgt = some ⟨.moduleP, []⟩)
    (hnt : tmpl ≠ tgt) (hna : A ≠ tgt) :
    copyAttr (setattrH (setattrH (allocObj h .moduleP []).1 tgt a h.next)
        h.next b B) tmpl tgt (a ++ ['.'] ++ b ++ ['.'] ++ w)
      = .ok (setattrH (setattrH (allocObj h .moduleP []).1 tgt a h.next)
          h.next b B) := by
  have htmplB := hwf.2 tmpl (getattrH_some_isSome hga)
  have hAB := hwf.2 A (getattrH_some_isSome hgb)
  have htgtB := hwf.2 tgt (by simp [htgt])
  have htgtN : tgt ≠ h.next := by omega
  have htmplN : tmpl ≠ h.next := by omega
  have hAN : A ≠ h.next := by omega
  have hN0 : h.next ≠ noneAddr := by
    show h.next ≠ 0
    have := hwf.1
    omega
  have hsplit : splitOnChar '.' (a ++ ['.'] ++ b ++ ['.'] ++ w)
      = [a, b, w] := by
    have he : a ++ ['.'] ++ b ++ ['.'] ++ w = a ++ '.' :: (b ++ '.' :: w) := by
      simp
    rw [he, splitOnChar_append_cons _ _ _ hadot,
      splitOnChar_append_cons _ _ _ hbdot, splitOnChar_not_mem _ _ hwdot]
  have hf1 : getattrH (setattrH (setattrH (allocObj h .moduleP []).1 tgt a
      h.next) h.next b B) tmpl a = some A := by
    rw [getattrH_setattr_ne _ _ _ _ _ _ htmplN,
      getattrH_congr _ _ tmpl (hLookup_allocSet h tgt a tmpl hnt htmplN), hga]
  have hf2 : getattrH (setattrH (setattrH (allocObj h .moduleP []).1 tgt a
      h.next) h.next b B) tgt a = some h.next := by
    rw [getattrH_setattr_ne _ _ _ _ _ _ htgtN]
    exact getattrH_setattr_self _ _ _ _ (by
      show (hLookup ((h.objs ++ [(h.next, ⟨.moduleP, []⟩)])) tgt).isSome
      rw [hLookup_append_of_isSome _ _ _ _ (by simp [htgt])]
      simp [htgt])
  have hf3 : getattrH (setattrH (setattrH (allocObj h .moduleP []).1 tgt a
      h.next) h.next b B) A b = some B := by
    rw [getattrH_setattr_ne _ _ _ _ _ _ hAN,
      getattrH_congr _ _ A (hLookup_allocSet h tgt a A hna hAN), hgb]
  have hf4 : getattrH (setattrH (setattrH (allocObj h .moduleP []).1 tgt a
      h.next) h.next b B) h.next b = some B := by
    exact getattrH_setattr_self _ _ _ _ (by
      rw [hLookup_allocSet_fresh h tgt a hwf htgtN]
      simp)
  unfold copyAttr
  rw [hsplit]
  show copyLoop _ tmpl tgt [a, b] w = _
  simp only [copyLoop, hf1, hf2, Option.getD_some]
  rw [if_neg hAN, if_neg hN0]
  simp only [copyLoop, hf3, hf4, Option.getD_some]
  rw [if_true]

theorem copyAttr_abw (h : Heap) (tmpl tgt A B W : Nat) (a b w : PStr)
    (hwf : heapWF h)
    (hadot : '.' ∉ a) (hbdot : '.' ∉ b) (hwdot : '.' ∉ w)
    (hga : getattrH h tmpl a = some A)
    (hgb : getattrH h A b = some B)
    (hgw : getattrH h B w = some W)
    (htgt : hLookup h.objs tgt = some ⟨.moduleP, []⟩)
    (hna : A ≠ tgt) (hnb : B ≠ tgt) :
    copyAttr h tmpl tgt (a ++ ['.'] ++ b ++ ['.'] ++ w)
      = .ok (setattrH (setattrH
          (allocObj (setattrH (allocObj h .moduleP []).1 tgt a h.next)
            .moduleP []).1 h.next b (h.next + 1)) (h.next + 1) w W) := by
  have hAB := hwf.2 A (getattrH_some_isSome hgb)
  have hBB := hwf.2 B (getattrH_some_isSome hgw)
  have htgtB := hwf.2 tgt (by simp [htgt])
  have htgtN : tgt ≠ h.next := by omega
  have hA0 : A ≠ noneAddr := by
    show A ≠ 0
    omega
  have hB0 : B ≠ noneAddr := by
    show B ≠ 0
    omega
  have hAN : A ≠ h.next := by omega
  have hBN : B ≠ h.next := by omega
  have hBN1 : B ≠ (setattrH (allocObj h .moduleP []).1 tgt a h.next).next := by
    rw [setattrH_next_eq, allocObj_fst_next]
    omega
  have htgta : getattrH h tgt a = none := by simp [getattrH, htgt, alLookup]
  have hsplit : splitOnChar '.' (a ++ ['.'] ++ b ++ ['.'] ++ w)
      = [a, b, w] := by
    have he : a ++ ['.'] ++ b ++ ['.'] ++ w = a ++ '.' :: (b ++ '.' :: w) := by
      simp
    rw [he, splitOnChar_append_cons _ _ _ hadot,
      splitOnChar_append_cons _ _ _ hbdot, splitOnChar_not_mem _ _ hwdot]
  have hread : getattrH (setattrH (allocObj h .moduleP []).1 tgt a h.next)
      A b = some B := by
    rw [getattrH_congr _ _ A (hLookup_allocSet h tgt a A hna hAN), hgb]
  have hreadN : getattrH (setattrH (allocObj h .moduleP []).1 tgt a h.next)
      h.next b = none := by
    unfold getattrH
    rw [hLookup_allocSet_fresh h tgt a hwf htgtN]
    rfl
  have hBkeep : hLookup (setattrH
      (allocObj (setattrH (allocObj h .moduleP []).1 tgt a h.next)
        .moduleP []).1 h.next b (h.next + 1)).objs B
      = hLookup (setattrH (allocObj h .moduleP []).1 tgt a h.next).objs B :=
    hLookup_allocSet _ h.next b B hBN hBN1
  have hreadBw : getattrH (setattrH
      (allocObj (setattrH (allocObj h .moduleP []).1 tgt a h.next)
        .moduleP []).1 h.next b (h.next + 1)) B w = some W := by
    rw [getattrH_congr _ _ B hBkeep,
      getattrH_congr _ _ B (hLookup_allocSet h tgt a B hnb hBN), hgw]
  unfold copyAttr
  rw [hsplit]
  show copyLoop h tmpl tgt [a, b] w = _
  simp only [copyLoop, hga, htgta, Option.getD_none, allocObj_snd]
  rw [if_neg hA0, if_true]
  simp only [copyLoop, hread, hreadN, Option.getD_none, allocObj_snd,
    setattrH_next_eq, allocObj_fst_next]
  rw [if_neg hB0, if_true]
  simp only [copyLoop, hreadBw]

theorem copyAttr_abw_then_ab (h : Heap) (tmpl tgt A B W : Nat) (a b w : PStr)
    (hwf : heapWF h)
    (hadot : '.' ∉ a) (hbdot : '.' ∉ b)
    (hga : getattrH h tmpl a = some A)
    (hgb : getattrH h A b = some B)
    (hgw : getattrH h B w = some W)
    (htgt : hLookup h.objs tgt = some ⟨.moduleP, []⟩)
    (hnt : tmpl ≠ tgt) (hna : A ≠ tgt) (hnb : B ≠ tgt) :
    copyAttr (setattrH (setattrH
        (allocObj (setattrH (allocObj h .moduleP []).1 tgt a h.next)
          .moduleP []).1 h.next b (h.next + 1)) (h.next + 1) w W)
      tmpl tgt (a ++ ['.'] ++ b)
      = .ok (setattrH (setattrH (setattrH
          (allocObj (setattrH (allocObj h .moduleP []).1 tgt a h.next)
            .moduleP []).1 h.next b (h.next + 1)) (h.next + 1) w W)
          h.next b B) := by
  have htmplB := hwf.2 tmpl (getattrH_some_isSome hga)
  have hAB := hwf.2 A (getattrH_some_isSome hgb)
  have hBB := hwf.2 B (getattrH_some_isSome hgw)
  have htgtB := hwf.2 tgt (by simp [htgt])
  have htgtN : tgt ≠ h.next := by omega
  have htmplN : tmpl ≠ h.next := by omega
  have hAN : A ≠ h.next := by omega
  have hN0 : h.next ≠ noneAddr := by
    show h.next ≠ 0
    have := hwf.1
    omega
  have hS1next : (setattrH (allocObj h .moduleP []).1 tgt a h.next).next
      = h.next + 1 := by
    rw [setattrH_next_eq, allocObj_fst_next]
  have hsplit : splitOnChar '.' (a ++ ['.'] ++ b) = [a, b] := by
    have he : a ++ ['.'] ++ b = a ++ '.' :: b := by simp
    rw [he, splitOnChar_append_cons _ _ _ hadot, splitOnChar_not_mem _ _ hbdot]
  have hkeepT : hLookup (setattrH
      (allocObj (setattrH (allocObj h .moduleP []).1 tgt a h.next)
        .moduleP []).1 h.next b (h.next + 1)).objs tmpl
      = hLookup (setattrH (allocObj h .moduleP []).1 tgt a h.next).objs
          tmpl :=
    hLookup_allocSet _ h.next b tmpl htmplN (by rw [hS1next]; omega)
  have hkeepG : hLookup (setattrH
      (allocObj (setattrH (allocObj h .moduleP []).1 tgt a h.next)
        .moduleP []).1 h.next b (h.next + 1)).objs tgt
      = hLookup (setattrH (allocObj h .moduleP []).1 tgt a h.next).objs
          tgt :=
    hLookup_allocSet _ h.next b tgt htgtN (by rw [hS1next]; omega)
  have hkeepA : hLookup (setattrH
      (allocObj (setattrH (allocObj h .moduleP []).1 tgt a h.next)
        .moduleP []).1 h.next b (h.next + 1)).objs A
      = hLookup (setattrH (allocObj h .moduleP []).1 tgt a h.next).objs A :=
    hLookup_allocSet _ h.next b A hAN (by rw [hS1next]; omega)
  have hg1 : getattrH (setattrH (setattrH
      (allocObj (setattrH (allocObj h .moduleP []).1 tgt a h.next)
        .moduleP []).1 h.next b (h.next + 1)) (h.next + 1) w W)
      tmpl a = some A := by
    rw [getattrH_setattr_ne _ _ _ _ _ _ (by omega : tmpl ≠ h.next + 1),
      getattrH_congr _ _ tmpl hkeepT,
      getattrH_congr _ _ tmpl (hLookup_allocSet h tgt a tmpl hnt htmplN),
      hga]
  have hg2 : getattrH (setattrH (setattrH
      (allocObj (setattrH (allocObj h .moduleP []).1 tgt a h.next)
        .moduleP []).1 h.next b (h.next + 1)) (h.next + 1) w W)
      tgt a = some h.next := by
    rw [getattrH_setattr_ne _ _ _ _ _ _ (by omega : tgt ≠ h.next + 1),
      getattrH_congr _ _ tgt hkeepG]
    exact getattrH_setattr_self _ _ _ _ (by
      show (hLookup ((h.objs ++ [(h.next, ⟨.moduleP, []⟩)])) tgt).isSome
      rw [hLookup_append_of_isSome _ _ _ _ (by simp [htgt])]
      simp [htgt])
  have hg3 : getattrH (setattrH (setattrH
      (allocObj (setattrH (allocObj h .moduleP []).1 tgt a h.next)
        .moduleP []).1 h.next b (h.next + 1)) (h.next + 1) w W)
      A b = some B := by
    rw [getattrH_setattr_ne _ _ _ _ _ _ (by omega : A ≠ h.next + 1),
      getattrH_congr _ _ A hkeepA,
      getattrH_congr _ _ A (hLookup_allocSet h tgt a A hna hAN),
      hgb]
  unfold copyAttr
  rw [hsplit]
  show copyLoop _ tmpl tgt [a] b = _
  simp only [copyLoop, hg1, hg2, Option.getD_some]
  rw [if_neg hAN, if_neg hN0]
  simp only [copyLoop, hg3]

/-- C3: transplant ancestor short-circuit.  In a well-formed heap where the
template resolves the paths a.b and a.b.w (A, B, W being the addresses of
the template's a, a.b and a.b.w objects) and the target is a fresh empty
module distinct from those objects, transplanting in either order leaves the
target's a.b slot holding the very address B of the template's a.b object
(reference identity, shared with the template); and transplanting a.b.w
after a.b returns the heap unchanged — the identity short-circuit fires at
b, so no object is allocated and no duplicate w is created. -/
theorem copyAttr_ancestor_short_circuit (h : Heap) (tmpl tgt A B W : Nat)
    (a b w : PStr) (hwf : heapWF h)
    (hadot : '.' ∉ a) (hbdot : '.' ∉ b) (hwdot : '.' ∉ w)
    (hga : getattrH h tmpl a = some A)
    (hgb : getattrH h A b = some B)
    (hgw : getattrH h B w = some W)
    (htgt : hLookup h.objs tgt = some ⟨.moduleP, []⟩)
    (hnt : tmpl ≠ tgt) (hna : A ≠ tgt) (hnb : B ≠ tgt) :
    (∃ h1, copyAttr h tmpl tgt (a ++ ['.'] ++ b) = .ok h1
       ∧ copyAttr h1 tmpl tgt (a ++ ['.'] ++ b ++ ['.'] ++ w) = .ok h1
       ∧ ∃ x, getattrH h1 tgt a = some x ∧ getattrH h1 x b = some B)
    ∧ (∃ h2 h3, copyAttr h tmpl tgt (a ++ ['.'] ++ b ++ ['.'] ++ w) = .ok h2
       ∧ copyAttr h2 tmpl tgt (a ++ ['.'] ++ b) = .ok h3
       ∧ ∃ x, getattrH h3 tgt a = some x ∧ getattrH h3 x b = some B) := by
  have hAB := hwf.2 A (getattrH_some_isSome hgb)
  have hBB := hwf.2 B (getattrH_some_isSome hgw)
  have htgtB := hwf.2 tgt (by simp [htgt])
  have htmplB := hwf.2 tmpl (getattrH_some_isSome hga)
  have htgtN : tgt ≠ h.next := by omega
  have htmplN : tmpl ≠ h.next := by omega
  have hAN : A ≠ h.next := by omega
  have hS1next : (setattrH (allocObj h .moduleP []).1 tgt a h.next).next
      = h.next + 1 := by
    rw [setattrH_next_eq, allocObj_fst_next]
  constructor
  · refine ⟨_, copyAttr_ab h tmpl tgt A B a b hwf hadot hbdot hga hgb htgt
      hna,
      copyAttr_ab_then_abw h tmpl tgt A B a b w hwf hadot hbdot hwdot hga
        hgb htgt hnt hna, h.next, ?_, ?_⟩
    · rw [getattrH_setattr_ne _ _ _ _ _ _ htgtN]
      exact getattrH_setattr_self _ _ _ _ (by
        show (hLookup ((h.objs ++ [(h.next, ⟨.moduleP, []⟩)])) tgt).isSome
        rw [hLookup_append_of_isSome _ _ _ _ (by simp [htgt])]
        simp [htgt])
    · exact getattrH_setattr_self _ _ _ _ (by
        rw [hLookup_allocSet_fresh h tgt a hwf htgtN]
        simp)
  · refine ⟨_, _, copyAttr_abw h tmpl tgt A B W a b w hwf hadot hbdot hwdot
      hga hgb hgw htgt hna hnb,
      copyAttr_abw_then_ab h tmpl tgt A B W a b w hwf hadot hbdot hga hgb
        hgw htgt hnt hna hnb, h.next, ?_, ?_⟩
    · have hkeepG : hLookup (setattrH
          (allocObj (setattrH (allocObj h .moduleP []).1 tgt a h.next)
            .moduleP []).1 h.next b (h.next + 1)).objs tgt
          = hLookup (setattrH (allocObj h .moduleP []).1 tgt a h.next).objs
              tgt :=
        hLookup_allocSet _ h.next b tgt htgtN (by rw [hS1next]; omega)
      rw [getattrH_setattr_ne _ _ _ _ _ _ htgtN,
        getattrH_setattr_ne _ _ _ _ _ _ (by omega : tgt ≠ h.next + 1),
        getattrH_congr _ _ tgt hkeepG]
      exact getattrH_setattr_self _ _ _ _ (by
        show (hLookup ((h.objs ++ [(h.next, ⟨.moduleP, []⟩)])) tgt).isSome
        rw [hLookup_append_of_isSome _ _ _ _ (by simp [htgt])]
        simp [htgt])
    · refine getattrH_setattr_self _ _ _ _ ?_
      rw [hLookup_isSome_setattr, hLookup_isSome_setattr]
      show (hLookup ((setattrH (allocObj h .moduleP []).1 tgt a
          h.next).objs ++ [((setattrH (allocObj h .moduleP []).1 tgt a
          h.next).next, ⟨.moduleP, []⟩)]) h.next).isSome
      rw [hLookup_append_ne _ _ _ _ (by rw [hS1next]; omega)]
      rw [hLookup_allocSet_fresh h tgt a hwf htgtN]
      rfl

theorem copyAttr_ancestor_short_circuit_witness :
    (∃ h1, copyAttr
        ({ objs := [ (1, ⟨.moduleP, [(['a'], 2)]⟩),
                     (2, ⟨.moduleP, [(['b'], 4)]⟩),
                     (3, ⟨.moduleP, []⟩),
                     (4, ⟨.moduleP, [(['w'], 5)]⟩),
                     (5, ⟨.leafP 0, []⟩) ], next := 6 } : Heap)
        1 3 (['a'] ++ ['.'] ++ ['b']) = .ok h1
       ∧ copyAttr h1 1 3 (['a'] ++ ['.'] ++ ['b'] ++ ['.'] ++ ['w']) = .ok h1
       ∧ ∃ x, getattrH h1 3 ['a'] = some x ∧ getattrH h1 x ['b'] = some 4)
    ∧ (∃ h2 h3, copyAttr
        ({ objs := [ (1, ⟨.moduleP, [(['a'], 2)]⟩),
                     (2, ⟨.moduleP, [(['b'], 4)]⟩),
                     (3, ⟨.moduleP, []⟩),
                     (4, ⟨.moduleP, [(['w'], 5)]⟩),
                     (5, ⟨.leafP 0, []⟩) ], next := 6 } : Heap)
        1 3 (['a'] ++ ['.'] ++ ['b'] ++ ['.'] ++ ['w']) = .ok h2
       ∧ copyAttr h2 1 3 (['a'] ++ ['.'] ++ ['b']) = .ok h3
       ∧ ∃ x, getattrH h3 3 ['a'] = some x ∧ getattrH h3 x ['b'] = some 4) :=
  copyAttr_ancestor_short_circuit
    ({ objs := [ (1, ⟨.moduleP, [(['a'], 2)]⟩),
                 (2, ⟨.moduleP, [(['b'], 4)]⟩),
                 (3, ⟨.moduleP, []⟩),
                 (4, ⟨.moduleP, [(['w'], 5)]⟩),
                 (5, ⟨.leafP 0, []⟩) ], next := 6 } : Heap)
    1 3 2 4 5 ['a'] ['b'] ['w']
    (by
      constructor
      · decide
      · intro x hx
        have hm := hLookup_isSome_mem _ _ hx
        simp at hm
        rcases hm with rfl | rfl | rfl | rfl | rfl <;> decide)
    (by decide) (by decide) (by decide)
    rfl rfl rfl rfl
    (by decide) (by decide) (by decide)

/-- C4 counterexample: a graph whose second qualifying node's target a.b.z
does not resolve in the template (the template's a.b has no field z) is
nonetheless accepted: construction succeeds, because the identity
short-circuit fires on the already-installed ancestor a.b and the
unresolvable tail is never checked.  This refutes the claim that every
unresolvable qualifying target makes construction fail with InvalidPath. -/
theorem construct_missing_path_succeeds_cex :
    exceptOk (GraphModule.construct (fun _ => true)
      ({ heap := { objs := [
            (1, ⟨.moduleP, [("training".data, 6), (['a'], 2)]⟩),
            (2, ⟨.moduleP, [(['b'], 4)]⟩),
            (4, ⟨.moduleP, []⟩),
            (6, ⟨.boolP true, []⟩),
            (7, ⟨.graphP { nodes := [⟨opGetParam, "a.b".data⟩,
                                     ⟨opGetParam, "a.b.z".data⟩],
                           pcBody := "r = self.a.b".data,
                           pcResult := ['r'],
                           pcFreeVars := [['x']] }, []⟩) ], next := 8 },
         nextId := 0, evalCache := [], classTable := [],
         nextCls := 0 } : PState) 1 7) = true
    ∧ resolvePath
      ({ objs := [
            (1, ⟨.moduleP, [("training".data, 6), (['a'], 2)]⟩),
            (2, ⟨.moduleP, [(['b'], 4)]⟩),
            (4, ⟨.moduleP, []⟩),
            (6, ⟨.boolP true, []⟩),
            (7, ⟨.graphP { nodes := [⟨opGetParam, "a.b".data⟩,
                                     ⟨opGetParam, "a.b.z".data⟩],
                           pcBody := "r = self.a.b".data,
                           pcResult := ['r'],
                           pcFreeVars := [['x']] }, []⟩) ], next := 8 } : Heap)
      1 "a.b.z".data = none := by
  constructor
  · rfl
  · rfl

theorem transplantAll_skip (root selfA : Nat) (pre0 : List NodeData) :
    ∀ (h : Heap) (rest : List NodeData),
      (∀ m ∈ pre0, ¬(m.op = opGetParam ∨ m.op = opCallModule)) →
      transplantAll root selfA h (pre0 ++ rest)
        = transplantAll root selfA h rest := by
  induction pre0 with
  | nil =>
    intro h rest _
    rfl
  | cons m ms ih =>
    intro h rest hpre
    have hm := hpre m (by simp)
    show transplantAll root selfA h (m :: (ms ++ rest)) = _
    simp only [transplantAll, if_neg hm]
    exact ih h rest (fun x hx => hpre x (List.mem_cons_of_mem _ hx))

theorem allocObj_fst_objs (h : Heap) (p : Payload)
    (attrs : List (PStr × Nat)) :
    (allocObj h p attrs).1.objs = h.objs ++ [(h.next, ⟨p, attrs⟩)] := rfl

theorem hLookup_allocSet_any (h : Heap) (tm : Nat) (item : PStr)
    (v a : Nat) (ha1 : a ≠ tm) (ha2 : a ≠ h.next) :
    hLookup (setattrH (allocObj h .moduleP []).1 tm item v).objs a
      = hLookup h.objs a := by
  show hLookup (objUpdate tm item v (allocObj h .moduleP []).1.objs) a
      = hLookup h.objs a
  rw [hLookup_objUpdate_ne _ _ _ _ _ ha1]
  exact hLookup_append_ne _ _ _ _ ha2

theorem getattrH_allocSet_any (h : Heap) (tm : Nat) (item : PStr)
    (v a : Nat) (nm : PStr) (ha1 : a ≠ tm) (ha2 : a ≠ h.next) :
    getattrH (setattrH (allocObj h .moduleP []).1 tm item v) a nm
      = getattrH h a nm :=
  getattrH_congr h _ a (hLookup_allocSet_any h tm item v a ha1 ha2) nm

/-- An attribute read below a self-contained bound stays below it. -/
theorem getattrH_attr_lt (h : Heap) (B a f : Nat) (nm : PStr)
    (haB : a < B) (hAB : attrsBelow h B) (hgf : getattrH h a nm = some f) :
    f < B := by
  unfold getattrH at hgf
  cases hx : hLookup h.objs a with
  | none =>
    rw [hx] at hgf
    exact absurd hgf (by simp)
  | some o =>
    rw [hx] at hgf
    have hgf2 : alLookup nm o.attrs = some f := hgf
    exact hAB a o haB hx (nm, f) (alLookup_mem hgf2)

theorem attrsBelow_allocSet (h : Heap) (B tm : Nat) (item : PStr) (v : Nat)
    (hB1 : B ≤ tm) (hB2 : B ≤ h.next) (hAB : attrsBelow h B) :
    attrsBelow (setattrH (allocObj h .moduleP []).1 tm item v) B := by
  intro a o haB ho p hp
  rw [hLookup_allocSet_any h tm item v a (by omega) (by omega)] at ho
  exact hAB a o haB ho p hp

/-- The template-side walk only reads objects below a self-contained bound,
so it is insensitive to heap changes at or above the bound. -/
theorem walkFails_congr (pfx : List PStr) :
    ∀ (field : PStr) (h h' : Heap) (fm B : Nat),
      fm < B → attrsBelow h B →
      (∀ a nm, a < B → getattrH h' a nm = getattrH h a nm) →
      walkFails h' fm pfx field = walkFails h fm pfx field := by
  induction pfx with
  | nil =>
    intro field h h' fm B hfm hAB heq
    simp only [walkFails]
    rw [heq fm field hfm]
  | cons item r2 ih =>
    intro field h h' fm B hfm hAB heq
    simp only [walkFails]
    rw [heq fm item hfm]
    cases hgf : getattrH h fm item with
    | none => rfl
    | some f =>
      show (if f = noneAddr then false else walkFails h' f r2 field)
          = (if f = noneAddr then false else walkFails h f r2 field)
      by_cases hf0 : f = noneAddr
      · rw [if_pos hf0, if_pos hf0]
      · rw [if_neg hf0, if_neg hf0]
        exact ih field h h' f B
          (getattrH_attr_lt h B fm f item hfm hAB hgf) hAB heq

/-- When the template-side walk reaches a missing name and the target side
never short-circuits (its entries along the walk are all absent, as on a
fresh unit), the _copy_attr loop fails with InvalidPath. -/
theorem copyLoop_walk_fails (pfx : List PStr) :
    ∀ (field : PStr) (h : Heap) (fm tm B : Nat),
      heapWF h → fm < B → B ≤ tm → tm < h.next → attrsBelow h B →
      walkFails h fm pfx field = true →
      (∀ item r2, pfx = item :: r2 → getattrH h tm item = none) →
      copyLoop h fm tm pfx field = .error .invalidPath := by
  induction pfx with
  | nil =>
    intro field h fm tm B hwf hfm htm htmn hAB hwalk hhd
    simp only [walkFails] at hwalk
    simp only [copyLoop]
    cases hgf : getattrH h fm field with
    | none => rfl
    | some v =>
      rw [hgf] at hwalk
      exact absurd hwalk (by simp)
  | cons item r2 ih =>
    intro field h fm tm B hwf hfm htm htmn hAB hwalk hhd
    have htmN : getattrH h tm item = none := hhd item r2 rfl
    simp only [walkFails] at hwalk
    simp only [copyLoop]
    cases hgf : getattrH h fm item with
    | none => rfl
    | some f =>
      have hw2 : (if f = noneAddr then false else walkFails h f r2 field)
          = true := by
        rw [hgf] at hwalk
        exact hwalk
      by_cases hf0 : f = noneAddr
      · rw [if_pos hf0] at hw2
        exact absurd hw2 (by simp)
      · rw [if_neg hf0] at hw2
        show (if f = (getattrH h tm item).getD noneAddr then Except.ok h
            else if (getattrH h tm item).getD noneAddr = noneAddr then
              copyLoop (setattrH (allocObj h .moduleP []).1 tm item
                (allocObj h .moduleP []).2) f (allocObj h .moduleP []).2
                r2 field
            else copyLoop h f ((getattrH h tm item).getD noneAddr) r2
              field)
          = .error .invalidPath
        rw [htmN, Option.getD_none, if_neg hf0, if_pos rfl]
        have hfB : f < B := getattrH_attr_lt h B fm f item hfm hAB hgf
        have hwf2 : heapWF (setattrH (allocObj h .moduleP []).1 tm item
            h.next) :=
          heapWF_setattr _ _ _ _ (heapWF_alloc _ _ _ hwf)
        have hAB2 : attrsBelow (setattrH (allocObj h .moduleP []).1 tm item
            h.next) B :=
          attrsBelow_allocSet h B tm item h.next htm (by omega) hAB
        have hwalk2 : walkFails (setattrH (allocObj h .moduleP []).1 tm
            item h.next) f r2 field = true := by
          rw [walkFails_congr r2 field h _ f B hfB hAB
            (fun a nm haB => getattrH_allocSet_any h tm item h.next a nm
              (by omega) (by omega))]
          exact hw2
        have hhd2 : ∀ it rs, r2 = it :: rs →
            getattrH (setattrH (allocObj h .moduleP []).1 tm item h.next)
              h.next it = none := by
          intro it rs hr
          unfold getattrH
          rw [hLookup_allocSet_fresh h tm item hwf (by omega)]
          rfl
        have hnext2 : h.next < (setattrH (allocObj h .moduleP []).1 tm item
            h.next).next := by
          rw [setattrH_next_eq, allocObj_fst_next]
          omega
        have hmain : copyLoop (setattrH (allocObj h .moduleP []).1 tm item
            h.next) f h.next r2 field = .error .invalidPath :=
          ih field _ f h.next B hwf2 hfB (by omega) hnext2 hAB2 hwalk2 hhd2
        exact hmain

/-- _copy_attr fails with InvalidPath when the template-side walk of the
dotted target reaches a missing name and the target never short-circuits. -/
theorem copyAttr_walk_fails (h : Heap) (fm tm B : Nat) (target : PStr)
    (hwf : heapWF h) (hfm : fm < B) (htm : B ≤ tm) (htmn : tm < h.next)
    (hAB : attrsBelow h B)
    (hwalk : walkFails h fm (splitOnChar '.' target).dropLast
      ((splitOnChar '.' target).getLastD []) = true)
    (hhd : ∀ item r2, (splitOnChar '.' target).dropLast = item :: r2 →
      getattrH h tm item = none) :
    copyAttr h fm tm target = .error .invalidPath := by
  unfold copyAttr
  exact copyLoop_walk_fails (splitOnChar '.' target).dropLast
    ((splitOnChar '.' target).getLastD []) h fm tm B hwf hfm htm htmn hAB
    hwalk hhd

theorem copyAttr_first_missing (h : Heap) (fm tm : Nat) (target : PStr)
    (hmiss : getattrH h fm ((splitOnChar '.' target).headD []) = none) :
    copyAttr h fm tm target = .error .invalidPath := by
  unfold copyAttr
  cases hp : splitOnChar '.' target with
  | nil => exact absurd hp (splitOnChar_ne_nil _ _)
  | cons c ps =>
    rw [hp] at hmiss
    simp only [List.headD] at hmiss
    cases ps with
    | nil =>
      show copyLoop h fm tm [] c = _
      simp only [copyLoop, hmiss]
    | cons d qs =>
      show copyLoop h fm tm (c :: (d :: qs).dropLast) ((d :: qs).getLastD c)
          = _
      simp only [copyLoop, hmiss]

/-- C4 (amended): construction fails with InvalidPath, returning no
instance, whenever the template-side walk of the first qualifying node's
target reaches a missing leading name or missing final field — descending
through real objects, with no None value and no identical-reference
short-circuit on the way — provided a multi-name target does not start at
training, the one attribute pre-installed on the fresh unit, whose identity
short-circuit would end the walk early.  The original universally
quantified claim is false: once an ancestor has been installed, the
identity short-circuit skips the rest of a later target's walk, so an
unresolvable tail goes unchecked and construction succeeds (see the
counterexample). -/
theorem construct_unresolvable_first_fails (compileOk : PStr → Bool)
    (s : PState) (root gA : Nat) (gd : GraphData) (pre0 : List NodeData)
    (n : NodeData) (rest : List NodeData)
    (hwf : heapWF s.heap)
    (hclosed : heapClosed s.heap)
    (hroot : (hLookup s.heap.objs root).isSome)
    (hgp : hPayload s.heap gA = some (.graphP gd))
    (hnodes : gd.nodes = pre0 ++ n :: rest)
    (hpre : ∀ m ∈ pre0, ¬(m.op = opGetParam ∨ m.op = opCallModule))
    (hqual : n.op = opGetParam ∨ n.op = opCallModule)
    (hmiss : walkFails s.heap root (splitOnChar '.' n.target).dropLast
      ((splitOnChar '.' n.target).getLastD []) = true)
    (hhead : ∀ item r2, (splitOnChar '.' n.target).dropLast = item :: r2 →
      item ≠ trainingName) :
    GraphModule.construct compileOk s root gA = .error .invalidPath := by
  have hrootB := hwf.2 root hroot
  have hrootN : root ≠ s.heap.next := by omega
  have hgAsome : (hLookup s.heap.objs gA).isSome := by
    unfold hPayload at hgp
    cases hx : hLookup s.heap.objs gA with
    | none =>
      rw [hx] at hgp
      simp at hgp
    | some o => simp [hx]
  have hgAB := hwf.2 gA hgAsome
  have hgAN : gA ≠ s.heap.next := by omega
  have hABs : attrsBelow s.heap s.heap.next := by
    intro a o haB ho p hp
    rcases hclosed a o ho p hp with h0 | h0
    · have h1 := hwf.1
      unfold noneAddr at h0
      omega
    · exact (hwf.2 p.2 h0).2
  cases htr : getattrH (allocObj s.heap .moduleP []).1 root trainingName
      with
  | none => simp only [GraphModule.construct, htr]
  | some tA =>
    have h2gp : hPayload (setattrH (allocObj s.heap .moduleP []).1
        s.heap.next trainingName tA) gA = some (.graphP gd) := by
      rw [hPayload_setattr, hPayload_alloc_ne _ _ _ _ hgAN]
      exact hgp
    have hwf2 : heapWF (setattrH (allocObj s.heap .moduleP []).1
        s.heap.next trainingName tA) :=
      heapWF_setattr _ _ _ _ (heapWF_alloc _ _ _ hwf)
    have hAB2 : attrsBelow (setattrH (allocObj s.heap .moduleP []).1
        s.heap.next trainingName tA) s.heap.next := by
      intro a o haB ho p hp
      rw [hLookup_allocSet_any s.heap s.heap.next trainingName tA a
        (by omega) (by omega)] at ho
      exact hABs a o haB ho p hp
    have hwalk2 : walkFails (setattrH (allocObj s.heap .moduleP []).1
        s.heap.next trainingName tA) root
        (splitOnChar '.' n.target).dropLast
        ((splitOnChar '.' n.target).getLastD []) = true := by
      rw [walkFails_congr (splitOnChar '.' n.target).dropLast
        ((splitOnChar '.' n.target).getLastD []) s.heap _ root s.heap.next
        hrootB.2 hABs
        (fun a nm haB => getattrH_allocSet_any s.heap s.heap.next
          trainingName tA a nm (by omega) (by omega))]
      exact hmiss
    have h2self : hLookup (setattrH (allocObj s.heap .moduleP []).1
        s.heap.next trainingName tA).objs s.heap.next
        = some ⟨.moduleP, alUpdate trainingName tA []⟩ := by
      show hLookup (objUpdate s.heap.next trainingName tA _) s.heap.next
          = _
      rw [hLookup_objUpdate_self, allocObj_fst_objs,
        hLookup_append_self _ _ _ (hLookup_fresh_none _ hwf)]
      rfl
    have hhd2 : ∀ item r2,
        (splitOnChar '.' n.target).dropLast = item :: r2 →
        getattrH (setattrH (allocObj s.heap .moduleP []).1 s.heap.next
          trainingName tA) s.heap.next item = none := by
      intro item r2 hr
      unfold getattrH
      rw [h2self]
      have hne : trainingName ≠ item := Ne.symm (hhead item r2 hr)
      simp [alUpdate, alLookup, hne]
    have hcopy : copyAttr (setattrH (allocObj s.heap .moduleP []).1
        s.heap.next trainingName tA) root s.heap.next n.target
        = .error .invalidPath :=
      copyAttr_walk_fails _ root s.heap.next s.heap.next n.target hwf2
        hrootB.2 (le_refl _) (by
          rw [setattrH_next_eq, allocObj_fst_next]
          omega) hAB2 hwalk2 hhd2
    simp only [GraphModule.construct, htr, h2gp, hnodes]
    rw [transplantAll_skip root s.heap.next pre0 _ (n :: rest) hpre]
    simp only [transplantAll, if_pos hqual, hcopy]

theorem construct_unresolvable_first_fails_witness :
    GraphModule.construct (fun _ => true)
      ({ heap := { objs := [
            (1, ⟨.moduleP, [("training".data, 2), (['a'], 5)]⟩),
            (2, ⟨.boolP true, []⟩),
            (3, ⟨.graphP { nodes := [⟨opGetParam, "a.z".data⟩],
                           pcBody := "r = self.a.z".data,
                           pcResult := ['r'],
                           pcFreeVars := [['x']] }, []⟩),
            (5, ⟨.moduleP, []⟩) ], next := 6 },
         nextId := 0, evalCache := [], classTable := [],
         nextCls := 0 } : PState) 1 3 = .error .invalidPath :=
  construct_unresolvable_first_fails (fun _ => true) _ 1 3
    { nodes := [⟨opGetParam, "a.z".data⟩],
      pcBody := "r = self.a.z".data, pcResult := ['r'],
      pcFreeVars := [['x']] }
    [] ⟨opGetParam, "a.z".data⟩ []
    (by
      constructor
      · decide
      · intro x hx
        have hm := hLookup_isSome_mem _ _ hx
        simp at hm
        rcases hm with rfl | rfl | rfl | rfl <;> decide)
    (by
      intro a o ha p hp
      have hm := hLookup_isSome_mem _ _ (Option.isSome_iff_exists.mpr
        ⟨o, ha⟩)
      simp at hm
      rcases hm with rfl | rfl | rfl | rfl
      · cases Option.some.inj ha
        simp at hp
        rcases hp with rfl | rfl <;> decide
      · cases Option.some.inj ha
        simp at hp
      · cases Option.some.inj ha
        simp at hp
      · cases Option.some.inj ha
        simp at hp)
    (by decide) rfl rfl (by simp) (Or.inl rfl) rfl
    (by
      intro item r2 hr
      have h0 : (['a'] : PStr) :: ([] : List PStr) = item :: r2 := hr
      have h1 : (['a'] : PStr) = item := (List.cons.inj h0).1
      intro hc
      exact absurd (h1.trans hc) (by decide))

theorem copyLoop_preserves (pre : List PStr) :
    ∀ (field : PStr) (h : Heap) (fm tm : Nat) (h' : Heap),
      copyLoop h fm tm pre field = .ok h' →
      h.next ≤ h'.next
      ∧ (heapWF h → heapWF h')
      ∧ (∀ x, (hLookup h.objs x).isSome →
          (hLookup h'.objs x).isSome ∧ hPayload h' x = hPayload h x) := by
  induction pre with
  | nil =>
    intro field h fm tm h' hrun
    simp only [copyLoop] at hrun
    cases hgf : getattrH h fm field with
    | none =>
      rw [hgf] at hrun
      exact absurd hrun (by simp)
    | some v =>
      rw [hgf] at hrun
      have hh' : setattrH h tm field v = h' := by injection hrun
      subst hh'
      refine ⟨le_refl _, heapWF_setattr _ _ _ _, fun x hx => ?_⟩
      rw [hLookup_isSome_setattr, hPayload_setattr]
      exact ⟨hx, rfl⟩
  | cons item rest ih =>
    intro field h fm tm h' hrun
    simp only [copyLoop] at hrun
    cases hgf : getattrH h fm item with
    | none =>
      rw [hgf] at hrun
      exact absurd hrun (by simp)
    | some f =>
      rw [hgf] at hrun
      cases hgt : getattrH h tm item with
      | some t =>
        rw [hgt] at hrun
        simp only [Option.getD_some] at hrun
        by_cases hft : f = t
        · rw [if_pos hft] at hrun
          have hh' : h = h' := by injection hrun
          subst hh'
          exact ⟨le_refl _, id, fun x hx => ⟨hx, rfl⟩⟩
        · rw [if_neg hft] at hrun
          by_cases ht0 : t = noneAddr
          · rw [if_pos ht0] at hrun
            obtain ⟨hn, hw, hp⟩ := ih field _ f h.next h' (by
              simpa [allocObj_snd] using hrun)
            refine ⟨by
              rw [setattrH_next_eq, allocObj_fst_next] at hn
              omega, ?_, ?_⟩
            · intro hwf
              exact hw (heapWF_setattr _ _ _ _ (heapWF_alloc _ _ _ hwf))
            · intro x hx
              have hx2 : (hLookup (setattrH (allocObj h .moduleP []).1 tm
                  item h.next).objs x).isSome := by
                rw [hLookup_isSome_setattr]
                show (hLookup (h.objs ++ [(h.next, ⟨.moduleP, []⟩)])
                    x).isSome
                rw [hLookup_append_of_isSome _ _ _ _ hx]
                exact hx
              obtain ⟨hx3, hp3⟩ := hp x hx2
              refine ⟨hx3, ?_⟩
              rw [hp3, hPayload_setattr]
              show hPayload (allocObj h .moduleP []).1 x = hPayload h x
              unfold hPayload
              rw [allocObj_fst_objs, hLookup_append_of_isSome _ _ _ _ hx]
          · rw [if_neg ht0] at hrun
            exact ih field h f t h' hrun
      | none =>
        rw [hgt] at hrun
        simp only [Option.getD_none] at hrun
        by_cases hf0 : f = noneAddr
        · rw [if_pos hf0] at hrun
          have hh' : h = h' := by injection hrun
          subst hh'
          exact ⟨le_refl _, id, fun x hx => ⟨hx, rfl⟩⟩
        · rw [if_neg hf0] at hrun
          have hrun' : copyLoop (setattrH (allocObj h .moduleP []).1 tm item
              h.next) f h.next rest field = .ok h' := by
            simpa [allocObj_snd] using hrun
          obtain ⟨hn, hw, hp⟩ := ih field _ f h.next h' hrun'
          refine ⟨by
            rw [setattrH_next_eq, allocObj_fst_next] at hn
            omega, ?_, ?_⟩
          · intro hwf
            exact hw (heapWF_setattr _ _ _ _ (heapWF_alloc _ _ _ hwf))
          · intro x hx
            have hx2 : (hLookup (setattrH (allocObj h .moduleP []).1 tm
                item h.next).objs x).isSome := by
              rw [hLookup_isSome_setattr]
              show (hLookup (h.objs ++ [(h.next, ⟨.moduleP, []⟩)]) x).isSome
              rw [hLookup_append_of_isSome _ _ _ _ hx]
              exact hx
            obtain ⟨hx3, hp3⟩ := hp x hx2
            refine ⟨hx3, ?_⟩
            rw [hp3, hPayload_setattr]
            show hPayload (allocObj h .moduleP []).1 x = hPayload h x
            unfold hPayload
            rw [allocObj_fst_objs, hLookup_append_of_isSome _ _ _ _ hx]

theorem copyAttr_preserves (h : Heap) (fm tm : Nat) (target : PStr)
    (h' : Heap) (hrun : copyAttr h fm tm target = .ok h') :
    h.next ≤ h'.next
    ∧ (heapWF h → heapWF h')
    ∧ (∀ x, (hLookup h.objs x).isSome →
        (hLookup h'.objs x).isSome ∧ hPayload h' x = hPayload h x) := by
  unfold copyAttr at hrun
  exact copyLoop_preserves _ _ h fm tm h' hrun

theorem transplantAll_preserves (root selfA : Nat) (nodes : List NodeData) :
    ∀ (h h' : Heap), transplantAll root selfA h nodes = .ok h' →
      h.next ≤ h'.next
      ∧ (heapWF h → heapWF h')
      ∧ (∀ x, (hLookup h.objs x).isSome →
          (hLookup h'.objs x).isSome ∧ hPayload h' x = hPayload h x) := by
  induction nodes with
  | nil =>
    intro h h' hrun
    have hh' : h = h' := by
      simpa [transplantAll] using hrun
    subst hh'
    exact ⟨le_refl _, id, fun x hx => ⟨hx, rfl⟩⟩
  | cons n rest ih =>
    intro h h' hrun
    simp only [transplantAll] at hrun
    by_cases hq : n.op = opGetParam ∨ n.op = opCallModule
    · rw [if_pos hq] at hrun
      cases hc : copyAttr h root selfA n.target with
      | error e =>
        rw [hc] at hrun
        exact absurd hrun (by simp)
      | ok h2 =>
        rw [hc] at hrun
        obtain ⟨ha1, ha2, ha3⟩ := copyAttr_preserves h root selfA n.target
          h2 hc
        obtain ⟨hb1, hb2, hb3⟩ := ih h2 h' hrun
        refine ⟨le_trans ha1 hb1, fun hwf => hb2 (ha2 hwf), fun x hx => ?_⟩
        obtain ⟨hx2, hp2⟩ := ha3 x hx
        obtain ⟨hx3, hp3⟩ := hb3 x hx2
        exact ⟨hx3, by rw [hp3, hp2]⟩
    · rw [if_neg hq] at hrun
      exact ih h h' hrun


theorem generate_forward_ok_eq (compileOk : PStr → Bool) (s : PState)
    (selfA clsId : Nat) (s' : PState)
    (hok : generate_forward compileOk s selfA clsId = .ok s') :
    ∃ gA gd,
      getattrH s.heap selfA graphName = some gA
      ∧ hPayload s.heap gA = some (.graphP gd)
      ∧ compileOk (gfCode gd) = true
      ∧ s' = gfResult s selfA clsId gd := by
  unfold generate_forward at hok
  cases hga : getattrH s.heap selfA graphName with
  | none =>
    simp only [hga] at hok
    exact absurd hok (by simp)
  | some gA =>
    simp only [hga] at hok
    cases hpa : hPayload s.heap gA with
    | none =>
      simp only [hpa] at hok
      exact absurd hok (by simp)
    | some p =>
      simp only [hpa] at hok
      cases p with
      | moduleP => exact absurd hok (by simp)
      | leafP k => exact absurd hok (by simp)
      | boolP bb => exact absurd hok (by simp)
      | strP st => exact absurd hok (by simp)
      | funcP k st => exact absurd hok (by simp)
      | graphP gd =>
        simp only [forward_from_src, exec_with_source] at hok
        by_cases hcomp : compileOk
            (synthesizeCode gd.pcBody gd.pcResult gd.pcFreeVars)
        · simp only [hcomp, if_true] at hok
          refine ⟨gA, gd, rfl, hpa, hcomp, ?_⟩
          injection hok with h2
          exact h2.symm.trans rfl
        · simp [hcomp] at hok

theorem gfResult_heap_next (s : PState) (selfA clsId : Nat)
    (gd : GraphData) :
    (gfResult s selfA clsId gd).heap.next = s.heap.next + 2 := rfl

theorem gfResult_classTable (s : PState) (selfA clsId : Nat)
    (gd : GraphData) :
    (gfResult s selfA clsId gd).classTable
      = alUpdate clsId (s.heap.next + 1) s.classTable := rfl

theorem gfResult_nextCls (s : PState) (selfA clsId : Nat) (gd : GraphData) :
    (gfResult s selfA clsId gd).nextCls = s.nextCls := rfl

theorem gfResult_bundle (s : PState) (selfA clsId : Nat) (gd : GraphData)
    (hwf : heapWF s.heap) (o : PyObj)
    (ho : hLookup s.heap.objs selfA = some o)
    (hselfB : selfA < s.heap.next) :
    GraphModule.reduceGM (gfResult s selfA clsId gd) selfA
      = alUpdate codeName s.heap.next o.attrs
    ∧ hPayload (gfResult s selfA clsId gd).heap s.heap.next
      = some (.strP (gfCode gd))
    ∧ heapWF (gfResult s selfA clsId gd).heap
    ∧ (∀ x, x ≠ selfA → (hLookup s.heap.objs x).isSome →
        hLookup (gfResult s selfA clsId gd).heap.objs x
          = hLookup s.heap.objs x) := by
  have hself : (hLookup s.heap.objs selfA).isSome := by simp [ho]
  have hSelfNe : selfA ≠ s.heap.next := by omega
  have hh2self : hLookup (setattrH (allocObj s.heap (.strP (gfCode gd))
      []).1 selfA codeName s.heap.next).objs selfA
      = some { o with attrs := alUpdate codeName s.heap.next o.attrs } := by
    show hLookup (objUpdate selfA codeName s.heap.next _) selfA = _
    rw [hLookup_objUpdate_self, allocObj_fst_objs,
      hLookup_append_of_isSome _ _ _ _ hself, ho]
    rfl
  have hh2selfSome : (hLookup (setattrH (allocObj s.heap
      (.strP (gfCode gd)) []).1 selfA codeName s.heap.next).objs
      selfA).isSome := by
    rw [hh2self]
    rfl
  refine ⟨?_, ?_, ?_, ?_⟩
  · unfold GraphModule.reduceGM
    show (match hLookup ((setattrH (allocObj s.heap (.strP (gfCode gd))
        []).1 selfA codeName s.heap.next).objs
        ++ [((setattrH (allocObj s.heap (.strP (gfCode gd)) []).1 selfA
          codeName s.heap.next).next,
          ⟨.funcP (keyFor s.nextId) (gfCode gd), []⟩)]) selfA with
      | some o2 => o2.attrs
      | none => ([] : List (PStr × Nat))) = _
    rw [hLookup_append_of_isSome _ _ _ _ hh2selfSome, hh2self]
  · show hPayload (allocObj _ _ _).1 s.heap.next = _
    unfold hPayload
    rw [allocObj_fst_objs]
    rw [hLookup_append_ne _ _ _ _ (by
      rw [setattrH_next_eq, allocObj_fst_next]
      omega)]
    show ((hLookup (objUpdate selfA codeName s.heap.next
      (allocObj s.heap (.strP (gfCode gd)) []).1.objs) s.heap.next).map
      PyObj.payload) = _
    rw [hLookup_objUpdate_ne _ _ _ _ _ (Ne.symm hSelfNe),
      allocObj_fst_objs,
      hLookup_append_self _ _ _ (hLookup_fresh_none _ hwf)]
    rfl
  · exact heapWF_alloc _ _ _ (heapWF_setattr _ _ _ _
      (heapWF_alloc _ _ _ hwf))
  · intro x hx hxs
    have hxh2 : hLookup (setattrH (allocObj s.heap (.strP (gfCode gd))
        []).1 selfA codeName s.heap.next).objs x
        = hLookup s.heap.objs x := by
      show hLookup (objUpdate selfA codeName s.heap.next _) x = _
      rw [hLookup_objUpdate_ne _ _ _ _ _ hx, allocObj_fst_objs,
        hLookup_append_of_isSome _ _ _ _ hxs]
    show hLookup ((setattrH (allocObj s.heap (.strP (gfCode gd)) []).1
        selfA codeName s.heap.next).objs ++ [_]) x = _
    rw [hLookup_append_of_isSome _ _ _ _ (by
      rw [hxh2]
      exact hxs), hxh2]

theorem gfResult_isSome (s : PState) (selfA clsId : Nat) (gd : GraphData)
    (x : Nat) (hx : (hLookup s.heap.objs x).isSome) :
    (hLookup (gfResult s selfA clsId gd).heap.objs x).isSome := by
  show (hLookup ((setattrH (allocObj s.heap (.strP (gfCode gd)) []).1 selfA
      codeName s.heap.next).objs ++ [_]) x).isSome
  have h1 : (hLookup (allocObj s.heap (.strP (gfCode gd)) []).1.objs
      x).isSome := by
    rw [allocObj_fst_objs, hLookup_append_of_isSome _ _ _ _ hx]
    exact hx
  have h2 : (hLookup (setattrH (allocObj s.heap (.strP (gfCode gd)) []).1
      selfA codeName s.heap.next).objs x).isSome := by
    rw [hLookup_isSome_setattr]
    exact h1
  rw [hLookup_append_of_isSome _ _ _ _ h2]
  exact h2

theorem construct_ok_shape (compileOk : PStr → Bool) (s : PState)
    (root gAddr : Nat) (s' : PState) (selfA clsId : Nat)
    (hok : GraphModule.construct compileOk s root gAddr
      = .ok (s', selfA, clsId)) :
    selfA = s.heap.next ∧ clsId = s.nextCls
    ∧ ∃ tA gd h3,
      getattrH (allocObj s.heap .moduleP []).1 root trainingName = some tA
      ∧ hPayload (setattrH (allocObj s.heap .moduleP []).1 s.heap.next
          trainingName tA) gAddr = some (.graphP gd)
      ∧ transplantAll root s.heap.next
          (setattrH (allocObj s.heap .moduleP []).1 s.heap.next
            trainingName tA) gd.nodes = .ok h3
      ∧ generate_forward compileOk
          { s with heap := setattrH h3 s.heap.next graphName gAddr,
                   nextCls := s.nextCls + 1 }
          s.heap.next s.nextCls = .ok s' := by
  unfold GraphModule.construct at hok
  cases htr : getattrH (allocObj s.heap .moduleP []).1 root trainingName with
  | none =>
    simp only [htr] at hok
    exact absurd hok (by simp)
  | some tA =>
    simp only [htr] at hok
    cases hpa : hPayload (setattrH (allocObj s.heap .moduleP []).1
        s.heap.next trainingName tA) gAddr with
    | none =>
      simp only [hpa] at hok
      exact absurd hok (by simp)
    | some p =>
      simp only [hpa] at hok
      cases p with
      | moduleP => exact absurd hok (by simp)
      | leafP k => exact absurd hok (by simp)
      | boolP bb => exact absurd hok (by simp)
      | strP st => exact absurd hok (by simp)
      | funcP k st => exact absurd hok (by simp)
      | graphP gd =>
        cases htp : transplantAll root s.heap.next
            (setattrH (allocObj s.heap .moduleP []).1 s.heap.next
              trainingName tA) gd.nodes with
        | error e =>
          simp only [htp] at hok
          exact absurd hok (by simp)
        | ok h3 =>
          simp only [htp] at hok
          cases hgf : generate_forward compileOk
              { s with heap := setattrH h3 s.heap.next graphName gAddr,
                       nextCls := s.nextCls + 1 }
              s.heap.next s.nextCls with
          | error e =>
            simp only [hgf] at hok
            exact absurd hok (by simp)
          | ok s5 =>
            simp only [hgf] at hok
            have h2 := hok
            simp only [Except.ok.injEq, Prod.mk.injEq] at h2
            obtain ⟨hs5, hselfA, hclsId⟩ := h2
            subst hs5
            exact ⟨hselfA.symm, hclsId.symm, tA, gd, h3, rfl, hpa, htp,
              hgf⟩

theorem construct_ok_spec (compileOk : PStr → Bool) (s : PState)
    (root gAddr : Nat) (s' : PState) (selfA clsId : Nat)
    (hwf : heapWF s.heap)
    (hok : GraphModule.construct compileOk s root gAddr
      = .ok (s', selfA, clsId)) :
    selfA = s.heap.next ∧ clsId = s.nextCls
    ∧ s'.nextCls = s.nextCls + 1
    ∧ heapWF s'.heap
    ∧ s.heap.next < s'.heap.next
    ∧ (∃ fA, s'.classTable = alUpdate clsId fA s.classTable
        ∧ s.heap.next ≤ fA ∧ fA < s'.heap.next)
    ∧ (hLookup s'.heap.objs s.heap.next).isSome
    ∧ (∀ x, (hLookup s.heap.objs x).isSome →
        (hLookup s'.heap.objs x).isSome) := by
  obtain ⟨hselfA, hclsId, tA, gd, h3, htr, hpa, htp, hgf⟩ :=
    construct_ok_shape compileOk s root gAddr s' selfA clsId hok
  have hwf2 : heapWF (setattrH (allocObj s.heap .moduleP []).1 s.heap.next
      trainingName tA) :=
    heapWF_setattr _ _ _ _ (heapWF_alloc _ _ _ hwf)
  have h2next : (setattrH (allocObj s.heap .moduleP []).1 s.heap.next
      trainingName tA).next = s.heap.next + 1 := rfl
  have h2selfSome : (hLookup (setattrH (allocObj s.heap .moduleP []).1
      s.heap.next trainingName tA).objs s.heap.next).isSome := by
    rw [hLookup_isSome_setattr, allocObj_fst_objs,
      hLookup_append_self _ _ _ (hLookup_fresh_none _ hwf)]
    rfl
  obtain ⟨tnm, twf, tpres⟩ := transplantAll_preserves root s.heap.next
    gd.nodes _ h3 htp
  have hwf3 : heapWF h3 := twf hwf2
  have hwf4 : heapWF (setattrH h3 s.heap.next graphName gAddr) :=
    heapWF_setattr _ _ _ _ hwf3
  have h3next : s.heap.next + 1 ≤ h3.next := by
    rw [h2next] at tnm
    exact tnm
  have h4selfSome : (hLookup (setattrH h3 s.heap.next graphName
      gAddr).objs s.heap.next).isSome := by
    rw [hLookup_isSome_setattr]
    exact (tpres _ h2selfSome).1
  obtain ⟨gA', gd', hga', hpa', hcomp', hs'eq⟩ :=
    generate_forward_ok_eq compileOk _ s.heap.next s.nextCls s' hgf
  subst hs'eq
  subst hselfA
  subst hclsId
  refine ⟨rfl, rfl, ?_, ?_, ?_, ?_, ?_, ?_⟩
  · rw [gfResult_nextCls]
  · exact heapWF_alloc _ _ _ (heapWF_setattr _ _ _ _
      (heapWF_alloc _ _ _ hwf4))
  · rw [gfResult_heap_next]
    show s.heap.next < (setattrH h3 s.heap.next graphName gAddr).next + 2
    rw [setattrH_next_eq]
    omega
  · refine ⟨(setattrH h3 s.heap.next graphName gAddr).next + 1,
      gfResult_classTable _ _ _ _, ?_, ?_⟩
    · show s.heap.next ≤ (setattrH h3 s.heap.next graphName gAddr).next + 1
      rw [setattrH_next_eq]
      omega
    · rw [gfResult_heap_next]
      show (setattrH h3 s.heap.next graphName gAddr).next + 1
          < (setattrH h3 s.heap.next graphName gAddr).next + 2
      omega
  · exact gfResult_isSome _ _ _ _ _ h4selfSome
  · intro x hx
    refine gfResult_isSome _ _ _ _ _ ?_
    rw [hLookup_isSome_setattr]
    refine (tpres x ?_).1
    rw [hLookup_isSome_setattr, allocObj_fst_objs,
      hLookup_append_of_isSome _ _ _ _ hx]
    exact hx

/-- C1 (amended): the state bundle __reduce__ pairs with the restore entry
point is the instance's flat attribute dictionary; it binds code to the
unit's current Generated Source Text (the string synthesized from the
graph's linearization) — but, contrary to the original claim, it also
contains the Graph itself, under the key graph, because __init__ stores the
graph as a plain instance attribute and __reduce__ ships the whole
dictionary. -/
theorem reduce_bundle_code_and_graph (compileOk : PStr → Bool) (s : PState)
    (root gAddr : Nat) (s' : PState) (selfA clsId : Nat)
    (hwf : heapWF s.heap)
    (hok : GraphModule.construct compileOk s root gAddr
      = .ok (s', selfA, clsId)) :
    ∃ gd codeA,
      hPayload s'.heap gAddr = some (.graphP gd)
      ∧ alLookup codeName (GraphModule.reduceGM s' selfA) = some codeA
      ∧ hPayload s'.heap codeA
          = some (.strP (synthesizeCode gd.pcBody gd.pcResult gd.pcFreeVars))
      ∧ alLookup graphName (GraphModule.reduceGM s' selfA) = some gAddr := by
  obtain ⟨hselfA, hclsId, tA, gd, h3, htr, hpa, htp, hgf⟩ :=
    construct_ok_shape compileOk s root gAddr s' selfA clsId hok
  subst hselfA
  subst hclsId
  have hwf2 : heapWF (setattrH (allocObj s.heap .moduleP []).1 s.heap.next
      trainingName tA) :=
    heapWF_setattr _ _ _ _ (heapWF_alloc _ _ _ hwf)
  have h2self : hLookup (setattrH (allocObj s.heap .moduleP []).1
      s.heap.next trainingName tA).objs s.heap.next
      = some ⟨.moduleP, alUpdate trainingName tA []⟩ := by
    show hLookup (objUpdate s.heap.next trainingName tA _) s.heap.next = _
    rw [hLookup_objUpdate_self, allocObj_fst_objs,
      hLookup_append_self _ _ _ (hLookup_fresh_none _ hwf)]
    rfl
  have h2selfSome : (hLookup (setattrH (allocObj s.heap .moduleP []).1
      s.heap.next trainingName tA).objs s.heap.next).isSome := by
    rw [h2self]
    rfl
  obtain ⟨tnm, twf, tpres⟩ := transplantAll_preserves root s.heap.next
    gd.nodes _ h3 htp
  have hwf3 : heapWF h3 := twf hwf2
  have h3next : s.heap.next + 1 ≤ h3.next := tnm
  have h3Nsome : (hLookup h3.objs s.heap.next).isSome :=
    (tpres _ h2selfSome).1
  obtain ⟨o3, ho3⟩ := Option.isSome_iff_exists.mp h3Nsome
  have hwf4 : heapWF (setattrH h3 s.heap.next graphName gAddr) :=
    heapWF_setattr _ _ _ _ hwf3
  have h4self : hLookup (setattrH h3 s.heap.next graphName gAddr).objs
      s.heap.next
      = some { o3 with attrs := alUpdate graphName gAddr o3.attrs } := by
    show hLookup (objUpdate s.heap.next graphName gAddr _) s.heap.next = _
    rw [hLookup_objUpdate_self, ho3]
    rfl
  obtain ⟨gA', gd', hga', hpa', hcomp', hs'eq⟩ :=
    generate_forward_ok_eq compileOk _ s.heap.next s.nextCls s' hgf
  have hga2 : getattrH (setattrH h3 s.heap.next graphName gAddr)
      s.heap.next graphName = some gAddr :=
    getattrH_setattr_self _ _ _ _ h3Nsome
  have hgAeq : gAddr = gA' := Option.some.inj (hga2.symm.trans hga')
  subst hgAeq
  have hgAsome2 : (hLookup (setattrH (allocObj s.heap .moduleP []).1
      s.heap.next trainingName tA).objs gAddr).isSome := by
    unfold hPayload at hpa
    cases hx : hLookup (setattrH (allocObj s.heap .moduleP []).1
        s.heap.next trainingName tA).objs gAddr with
    | none =>
      rw [hx] at hpa
      simp at hpa
    | some o => simp
  have hpa3 : hPayload (setattrH h3 s.heap.next graphName gAddr) gAddr
      = some (.graphP gd) := by
    rw [hPayload_setattr, (tpres gAddr hgAsome2).2]
    exact hpa
  have hgdEq : gd = gd' := Payload.graphP.inj
    (Option.some.inj (hpa3.symm.trans hpa'))
  subst hgdEq
  have hpN4 : hPayload (setattrH h3 s.heap.next graphName gAddr)
      s.heap.next = some .moduleP := by
    unfold hPayload
    rw [h4self]
    have hp3 : o3.payload = .moduleP := by
      have hpp := (tpres s.heap.next h2selfSome).2
      unfold hPayload at hpp
      rw [ho3, h2self] at hpp
      exact Option.some.inj hpp
    simp [hp3]
  have hgAN : gAddr ≠ s.heap.next := by
    intro he
    rw [he] at hpa3 hpN4
    exact Payload.noConfusion (Option.some.inj (hpa3.symm.trans hpN4))
  obtain ⟨o4, ho4⟩ := Option.isSome_iff_exists.mp (by
    rw [hLookup_isSome_setattr]
    exact h3Nsome :
    (hLookup (setattrH h3 s.heap.next graphName gAddr).objs
      s.heap.next).isSome)
  obtain ⟨b1, b2, b3, b4⟩ := gfResult_bundle
    { s with heap := setattrH h3 s.heap.next graphName gAddr,
             nextCls := s.nextCls + 1 }
    s.heap.next s.nextCls gd hwf4 o4 ho4 (by
      show s.heap.next < (setattrH h3 s.heap.next graphName gAddr).next
      rw [setattrH_next_eq]
      omega)
  subst hs'eq
  refine ⟨gd, (setattrH h3 s.heap.next graphName gAddr).next, ?_, ?_, ?_,
    ?_⟩
  · have hgAsome4 : (hLookup (setattrH h3 s.heap.next graphName
        gAddr).objs gAddr).isSome := by
      unfold hPayload at hpa3
      cases hx : hLookup (setattrH h3 s.heap.next graphName gAddr).objs
          gAddr with
      | none =>
        rw [hx] at hpa3
        simp at hpa3
      | some o => rfl
    have hgAkeep := b4 gAddr hgAN hgAsome4
    show hPayload (gfResult _ _ _ _).heap gAddr = _
    unfold hPayload
    rw [hgAkeep]
    exact hpa3
  · rw [b1]
    exact alLookup_update_self _ _ _
  · exact b2
  · rw [b1, alLookup_update_ne _ _ _ _ (by decide)]
    have ho4eq := ho4.symm.trans h4self
    injection ho4eq with h2
    rw [h2]
    exact alLookup_update_self _ _ _

/-- C1 counterexample: on a concrete template and graph, construction
succeeds and the state bundle returned by __reduce__ DOES contain the
Graph: the key graph is bound to the very address of the graph object,
refuting the claim that the bundle does not contain the Graph. -/
theorem reduce_bundle_contains_graph_cex :
    exceptOk (GraphModule.construct (fun _ => true) sC1 1 7) = true
    ∧ alLookup graphName (GraphModule.reduceGM sC1res 8) = some 7
    ∧ hPayload sC1res.heap 7 = some (.graphP gdC1) := by
  exact ⟨rfl, rfl, rfl⟩

theorem reduce_bundle_code_and_graph_witness :
    heapWF sC1.heap
    ∧ GraphModule.construct (fun _ => true) sC1 1 7 = .ok (sC1res, 8, 0)
    ∧ ∃ gd codeA,
        hPayload sC1res.heap 7 = some (.graphP gd)
        ∧ alLookup codeName (GraphModule.reduceGM sC1res 8) = some codeA
        ∧ hPayload sC1res.heap codeA
            = some (.strP (synthesizeCode gd.pcBody gd.pcResult
                gd.pcFreeVars))
        ∧ alLookup graphName (GraphModule.reduceGM sC1res 8) = some 7 := by
  have hwf : heapWF sC1.heap := by
    refine ⟨by decide, fun a ha => ?_⟩
    have hm := hLookup_isSome_mem _ _ ha
    simp [sC1] at hm
    rcases hm with rfl | rfl | rfl | rfl | rfl <;>
      exact ⟨by decide, by decide⟩
  have hok : GraphModule.construct (fun _ => true) sC1 1 7
      = .ok (sC1res, 8, 0) := by rfl
  exact ⟨hwf, hok, reduce_bundle_code_and_graph (fun _ => true) sC1 1 7
    sC1res 8 0 hwf hok⟩

/-- C7: per-instance isolation.  Two units constructed from the same
declared type receive distinct runtime classes, each with its own
installed forward; re-generating the first unit's forward replaces only
the first unit's class entry (its installed method and source) and leaves
the second unit's class entry and container object untouched. -/
theorem per_instance_forward_isolation (compileOk : PStr → Bool)
    (s s1 s2 s3 : PState) (root g root2 g2 a1 c1 a2 c2 : Nat)
    (hwf : heapWF s.heap)
    (hok1 : GraphModule.construct compileOk s root g = .ok (s1, a1, c1))
    (hok2 : GraphModule.construct compileOk s1 root2 g2 = .ok (s2, a2, c2))
    (hrebind : generate_forward compileOk s2 a1 c1 = .ok s3) :
    c1 ≠ c2
    ∧ (∃ f1 f2, alLookup c1 s2.classTable = some f1
        ∧ alLookup c2 s2.classTable = some f2 ∧ f1 ≠ f2)
    ∧ alLookup c2 s3.classTable = alLookup c2 s2.classTable
    ∧ alLookup c1 s3.classTable ≠ alLookup c1 s2.classTable
    ∧ hLookup s3.heap.objs a2 = hLookup s2.heap.objs a2 := by
  obtain ⟨ha1, hc1, hnc1, hwf1, hn1, ⟨fA1, hct1, hfA1l, hfA1u⟩, hb1, hp1⟩ :=
    construct_ok_spec compileOk s root g s1 a1 c1 hwf hok1
  obtain ⟨ha2, hc2, hnc2, hwf2, hn2, ⟨fA2, hct2, hfA2l, hfA2u⟩, hb2, hp2⟩ :=
    construct_ok_spec compileOk s1 root2 g2 s2 a2 c2 hwf1 hok2
  have hcne : c1 ≠ c2 := by omega
  have hl1 : alLookup c1 s2.classTable = some fA1 := by
    rw [hct2, alLookup_update_ne _ _ _ _ hcne, hct1]
    exact alLookup_update_self _ _ _
  have hl2 : alLookup c2 s2.classTable = some fA2 := by
    rw [hct2]
    exact alLookup_update_self _ _ _
  obtain ⟨gA3, gd3, hga3, hpa3, hcomp3, hs3⟩ :=
    generate_forward_ok_eq compileOk s2 a1 c1 s3 hrebind
  have hct3 : s3.classTable = alUpdate c1 (s2.heap.next + 1)
      s2.classTable := by
    rw [hs3]
    exact gfResult_classTable _ _ _ _
  refine ⟨hcne, ⟨fA1, fA2, hl1, hl2, by omega⟩, ?_, ?_, ?_⟩
  · rw [hct3, alLookup_update_ne _ _ _ _ (Ne.symm hcne)]
  · rw [hct3, alLookup_update_self _ _ _, hl1]
    intro he
    have h0 := Option.some.inj he
    omega
  · have ha1b1 : (hLookup s1.heap.objs a1).isSome := by
      rw [ha1]
      exact hb1
    have ha1b2 : (hLookup s2.heap.objs a1).isSome := hp2 a1 ha1b1
    obtain ⟨o1, ho1⟩ := Option.isSome_iff_exists.mp ha1b2
    have hane : a2 ≠ a1 := by omega
    have ha2b : (hLookup s2.heap.objs a2).isSome := by
      rw [ha2]
      exact hb2
    obtain ⟨b1x, b2x, b3x, b4x⟩ := gfResult_bundle s2 a1 c1 gd3 hwf2 o1 ho1
      (by omega)
    rw [hs3]
    exact b4x a2 hane ha2b

theorem per_instance_forward_isolation_witness :
    heapWF sC1.heap
    ∧ GraphModule.construct (fun _ => true) sC1 1 7 = .ok (sC1res, 8, 0)
    ∧ GraphModule.construct (fun _ => true) sC1res 1 7 = .ok (sC7b, 12, 1)
    ∧ generate_forward (fun _ => true) sC7b 8 0 = .ok sC7c
    ∧ ((0 : Nat) ≠ 1
      ∧ (∃ f1 f2, alLookup 0 sC7b.classTable = some f1
          ∧ alLookup 1 sC7b.classTable = some f2 ∧ f1 ≠ f2)
      ∧ alLookup 1 sC7c.classTable = alLookup 1 sC7b.classTable
      ∧ alLookup 0 sC7c.classTable ≠ alLookup 0 sC7b.classTable
      ∧ hLookup sC7c.heap.objs 12 = hLookup sC7b.heap.objs 12) := by
  have hwf : heapWF sC1.heap := by
    refine ⟨by decide, fun a ha => ?_⟩
    have hm := hLookup_isSome_mem _ _ ha
    simp [sC1] at hm
    rcases hm with rfl | rfl | rfl | rfl | rfl <;>
      exact ⟨by decide, by decide⟩
  have hok1 : GraphModule.construct (fun _ => true) sC1 1 7
      = .ok (sC1res, 8, 0) := by rfl
  have hok2 : GraphModule.construct (fun _ => true) sC1res 1 7
      = .ok (sC7b, 12, 1) := by rfl
  have hreb : generate_forward (fun _ => true) sC7b 8 0 = .ok sC7c := by
    rfl
  exact ⟨hwf, hok1, hok2, hreb,
    per_instance_forward_isolation (fun _ => true) sC1 sC1res sC7b sC7c
      1 7 1 7 8 0 12 1 hwf hok1 hok2 hreb⟩
